import Mathlib

/-!
Verification of the json-notify change-detection-and-notification pipeline.

The development shallowly embeds the core of the program: the JSON value
model, the comparer (`compareJson`), the summarizer (`generateChangeSummary`),
the notifier (`sendTelegramNotification`, `escapeMarkdownV2`), the state store
(`writeState` / `readLastState` over an abstract state file), and the
orchestrator (`checkJsonUpdates`).  External collaborators (HTTP fetch, the AI
provider, the Telegram client, the filesystem) are parameters supplying their
outcomes; the JavaScript built-ins `JSON.stringify` / `JSON.parse` and the
`fast-json-stable-stringify` and `diff` packages are modelled concretely.
-/

namespace JsonNotify

/-- A JSON value as produced by `JSON.parse`: the monitored document snapshot
(`JsonState` in the design).  Numbers are represented by their canonical
serialized numeral token, since the program never computes with them and both
serializers in the program print a given number the same way.  Object fields
keep insertion order, as JavaScript objects do. -/
inductive Json where
  | null
  | bool (b : Bool)
  | num (tok : String)
  | str (s : String)
  | arr (elems : List Json)
  | obj (fields : List (String × Json))
deriving Repr

mutual

/-- Structural (decidable) equality test for `Json` values. -/
def Json.beq : Json → Json → Bool
  | .null, .null => true
  | .bool a, .bool b => a == b
  | .num a, .num b => a == b
  | .str a, .str b => a == b
  | .arr xs, .arr ys => Json.beqList xs ys
  | .obj fs, .obj gs => Json.beqFields fs gs
  | _, _ => false

def Json.beqList : List Json → List Json → Bool
  | [], [] => true
  | x :: xs, y :: ys => Json.beq x y && Json.beqList xs ys
  | _, _ => false

def Json.beqFields : List (String × Json) → List (String × Json) → Bool
  | [], [] => true
  | (k, v) :: fs, (l, w) :: gs => k == l && Json.beq v w && Json.beqFields fs gs
  | _, _ => false

end

/-- Code-unit lexicographic string order, as used by JavaScript's default
`Array.prototype.sort` comparator on the (BMP) object keys. -/
def lexLe : List Char → List Char → Bool
  | [], _ => true
  | _ :: _, [] => false
  | a :: as, b :: bs =>
    if a.toNat < b.toNat then true
    else if b.toNat < a.toNat then false
    else lexLe as bs

def strLe (a b : String) : Bool := lexLe a.data b.data

/-- Strict code-unit lexicographic string order. -/
def lexLt : List Char → List Char → Bool
  | [], [] => false
  | [], _ :: _ => true
  | _ :: _, [] => false
  | a :: as, b :: bs =>
    if a.toNat < b.toNat then true
    else if b.toNat < a.toNat then false
    else lexLt as bs

def strLt (a b : String) : Bool := lexLt a.data b.data

/-- Insert a keyed pair into a key-sorted association list. -/
def insertByKey {α : Type} (p : String × α) : List (String × α) → List (String × α)
  | [] => [p]
  | q :: qs => if strLe p.1 q.1 then p :: q :: qs else q :: insertByKey p qs

/-- Sort an association list by key (insertion sort); models the
`Object.keys(node).sort()` step of both serializers. -/
def sortByKey {α : Type} : List (String × α) → List (String × α)
  | [] => []
  | p :: ps => insertByKey p (sortByKey ps)

mutual

/-- Recursively sort all object keys.  Models the `canonicalize` step the
`diff` package applies before pretty-printing both sides of a JSON diff. -/
def canon : Json → Json
  | .null => .null
  | .bool b => .bool b
  | .num t => .num t
  | .str s => .str s
  | .arr xs => .arr (canonList xs)
  | .obj fs => .obj (sortByKey (canonFields fs))

def canonList : List Json → List Json
  | [] => []
  | x :: xs => canon x :: canonList xs

def canonFields : List (String × Json) → List (String × Json)
  | [] => []
  | (k, v) :: fs => (k, canon v) :: canonFields fs

end

def hexDigitChar (n : Nat) : Char :=
  if n < 10 then Char.ofNat (48 + n) else Char.ofNat (87 + n)

/-- How `JSON.stringify` escapes one character inside a string literal. -/
def escapeJsonChar (c : Char) : List Char :=
  if c = '"' then ['\\', '"']
  else if c = '\\' then ['\\', '\\']
  else if c = '\x08' then ['\\', 'b']
  else if c = '\t' then ['\\', 't']
  else if c = '\n' then ['\\', 'n']
  else if c = '\x0c' then ['\\', 'f']
  else if c = '\r' then ['\\', 'r']
  else if c.toNat < 32 then
    ['\\', 'u', '0', '0', hexDigitChar (c.toNat / 16), hexDigitChar (c.toNat % 16)]
  else [c]

def escapeJsonString (l : List Char) : List Char := (l.map escapeJsonChar).flatten

/-- A double-quoted JSON string literal, as printed by `JSON.stringify`. -/
def quoteJsonString (s : String) : String := ⟨'"' :: (escapeJsonString s.data ++ ['"'])⟩

def joinComma : List String → String
  | [] => ""
  | [x] => x
  | x :: xs => x ++ "," ++ joinComma xs

def memberStr (kv : String × String) : String := quoteJsonString kv.1 ++ ":" ++ kv.2

mutual

/-- Model of `fast-json-stable-stringify`: compact serialization with object
keys sorted, used by `compareJson` as the canonical form.  (Keys are sorted
and then each member is serialized; here each value is serialized first and
the keyed results are sorted, which yields the same string since serializing
does not touch the keys.) -/
def stableStringify : Json → String
  | .null => "null"
  | .bool b => if b then "true" else "false"
  | .num t => t
  | .str s => quoteJsonString s
  | .arr xs => "[" ++ joinComma (stableStringifyList xs) ++ "]"
  | .obj fs => "\x7b" ++ joinComma ((sortByKey (stableStringifyFields fs)).map memberStr) ++ "\x7d"

def stableStringifyList : List Json → List String
  | [] => []
  | x :: xs => stableStringify x :: stableStringifyList xs

def stableStringifyFields : List (String × Json) → List (String × String)
  | [] => []
  | (k, v) :: fs => (k, stableStringify v) :: stableStringifyFields fs

end

mutual

/-- Model of `JSON.stringify(value, null, 2)`: pretty-printed serialization
with two-space indentation, insertion-ordered object keys.  `ind` is the
indentation of the surrounding context. -/
def prettyJson (ind : String) : Json → String
  | .null => "null"
  | .bool b => if b then "true" else "false"
  | .num t => t
  | .str s => quoteJsonString s
  | .arr [] => "[]"
  | .arr (x :: xs) => "[\n" ++ prettyElems (ind ++ "  ") (x :: xs) ++ "\n" ++ ind ++ "]"
  | .obj [] => "\x7b\x7d"
  | .obj (f :: fs) => "\x7b\n" ++ prettyMembers (ind ++ "  ") (f :: fs) ++ "\n" ++ ind ++ "\x7d"

def prettyElems (ind : String) : List Json → String
  | [] => ""
  | [x] => ind ++ prettyJson ind x
  | x :: xs => ind ++ prettyJson ind x ++ ",\n" ++ prettyElems ind xs

def prettyMembers (ind : String) : List (String × Json) → String
  | [] => ""
  | [f] => ind ++ quoteJsonString f.1 ++ ": " ++ prettyJson ind f.2
  | f :: fs => ind ++ quoteJsonString f.1 ++ ": " ++ prettyJson ind f.2 ++ ",\n" ++ prettyMembers ind fs

end

/-- One segment of a structural diff, as in the `diff` package's `Change`
objects: a serialized fragment that was added, removed, or (when neither flag
is set) unchanged context. -/
structure Change where
  value : String
  added : Bool
  removed : Bool
deriving DecidableEq, Repr

def memberPretty (f : String × Json) : String :=
  quoteJsonString f.1 ++ ": " ++ prettyJson "" f.2

mutual

/-- Modelled from the spec: the `diff` package's `diffJson` is not part of
this repository, so its structural tree diff is modelled per the design: a
node-granular walk of the two canonicalized values yielding an ordered list
of added/removed leaf segments, with unchanged context segments retained so
that the comparer's filter step is meaningful. -/
def structDiff : Json → Json → List Change
  | .arr xs, .arr ys =>
    if Json.beqList xs ys then [⟨prettyJson "" (.arr xs), false, false⟩]
    else diffElems xs ys
  | .obj fs, .obj gs =>
    if Json.beqFields fs gs then [⟨prettyJson "" (.obj fs), false, false⟩]
    else diffMembers fs gs
  | o, n =>
    if Json.beq o n then [⟨prettyJson "" o, false, false⟩]
    else [⟨prettyJson "" o, false, true⟩, ⟨prettyJson "" n, true, false⟩]

def diffElems : List Json → List Json → List Change
  | [], ys => ys.map fun y => ⟨prettyJson "" y, true, false⟩
  | x :: xs, [] => ⟨prettyJson "" x, false, true⟩ :: diffElems xs []
  | x :: xs, y :: ys => structDiff x y ++ diffElems xs ys

def diffMembers : List (String × Json) → List (String × Json) → List Change
  | [], gs => gs.map fun g => ⟨memberPretty g, true, false⟩
  | f :: fs, gs =>
    (gs.takeWhile fun g => strLt g.1 f.1).map (fun g => ⟨memberPretty g, true, false⟩) ++
      match gs.dropWhile fun g => strLt g.1 f.1 with
      | [] => ⟨memberPretty f, false, true⟩ :: diffMembers fs []
      | g :: rest =>
        if f.1 = g.1 then structDiff f.2 g.2 ++ diffMembers fs rest
        else ⟨memberPretty f, false, true⟩ :: diffMembers fs (g :: rest)

end

/-- `diffJson(oldState, newState)` from the `diff` package: canonicalize both
values (sort object keys), then diff the structures. -/
def diffJson (oldState newState : Json) : List Change :=
  structDiff (canon oldState) (canon newState)

/-- `compareJson` from `src/comparer.ts`: return `none` when the stable
serializations agree, otherwise the diff segments filtered to those actually
added or removed, or `none` if no such segment remains. -/
def compareJson (oldState newState : Json) : Option (List Change) :=
  if stableStringify oldState = stableStringify newState then none
  else
    let differences := diffJson oldState newState
    let actualChanges := differences.filter fun part => part.added || part.removed
    if actualChanges.length = 0 then none
    else some actualChanges

/-- The MarkdownV2 reserved characters escaped by `escapeMarkdownV2`. -/
def markdownV2Reserved : List Char :=
  ['_', '*', '[', ']', '(', ')', '~', '\x60', '>', '#', '+', '-', '=', '|', '\x7b', '\x7d', '.', '!']

/-- Character scan of `escapeMarkdownV2`'s global regex replace: a reserved
character is escaped unless the preceding input character is a backslash
(the `(?<!\\)` lookbehind inspects the original input, and each match is a
single character, so the replace is exactly this left-to-right scan).
`prev` is the previous input character. -/
def escapeMarkdownV2Core : Option Char → List Char → List Char
  | _, [] => []
  | prev, c :: rest =>
    if markdownV2Reserved.contains c && prev != some '\\' then
      '\\' :: c :: escapeMarkdownV2Core (some c) rest
    else c :: escapeMarkdownV2Core (some c) rest

/-- `escapeMarkdownV2` from `src/notifier.ts`. -/
def escapeMarkdownV2 (text : String) : String := ⟨escapeMarkdownV2Core none text.data⟩

/-- The escaping function the specification describes: a reserved character
is escaped unless it is already preceded by an *unescaped* backslash.  The
Boolean argument records whether the previous input character is an
unescaped backslash. -/
def escapeMarkdownV2SpecCore : Bool → List Char → List Char
  | _, [] => []
  | prevUnescapedBackslash, c :: rest =>
    if markdownV2Reserved.contains c && !prevUnescapedBackslash then
      '\\' :: c :: escapeMarkdownV2SpecCore false rest
    else c :: escapeMarkdownV2SpecCore (c == '\\' && !prevUnescapedBackslash) rest

def escapeMarkdownV2Spec (text : String) : String := ⟨escapeMarkdownV2SpecCore false text.data⟩

/-- Positional restatement of what the code's escaping does: each character is
emitted as-is, with a backslash prefixed exactly when it is reserved and the
directly preceding input character (if any) is not a backslash. -/
def escapeMarkdownV2Positional (l : List Char) : List Char :=
  ((l.zip (none :: l.map some)).map fun pc =>
    if markdownV2Reserved.contains pc.1 && pc.2 != some '\\' then ['\\', pc.1] else [pc.1]).flatten

/-- A JavaScript exception value, reduced to its message text. -/
structure JsError where
  message : String
deriving DecidableEq, Repr

/-- `SummaryResult` / `ChangeSummaryResult`: the summarizer's verdict and
human-readable text, as constrained by `ChangeSummarySchema`. -/
structure ChangeSummaryResult where
  isWorthToReport : Bool
  reportedChanges : String
deriving DecidableEq, Repr

def defaultErrorResult : ChangeSummaryResult :=
  ⟨false, "Error generating change summary."⟩

def defaultNoChangesResult : ChangeSummaryResult :=
  ⟨false, "No changes detected."⟩

def changeTag (part : Change) : String := if part.added then "[ADDED]" else "[REMOVED]"

/-- Body of `formatDiffForAI`: each segment rendered as `[ADDED]`/`[REMOVED]`
plus its trimmed value, separated by `---` lines (no trailing separator). -/
def formatDiffBody : List Change → String
  | [] => ""
  | [part] => changeTag part ++ " " ++ part.value.trim ++ "\n"
  | part :: rest => changeTag part ++ " " ++ part.value.trim ++ "\n" ++ "---\n" ++ formatDiffBody rest

/-- `formatDiffForAI` from `src/aiProcessor.ts`. -/
def formatDiffForAI (changes : List Change) : String :=
  "Detected changes:\n\n" ++ formatDiffBody (changes.filter fun part => part.added || part.removed)

def maxDiffLength : Nat := 3000

/-- The truncation step applied to the rendered diff before it is sent. -/
def truncateDiff (formattedDiff : String) : String :=
  if formattedDiff.length > maxDiffLength then
    formattedDiff.take maxDiffLength ++ "\n... [diff truncated] ..."
  else formattedDiff

/-- First field of the given name in a JSON object (JavaScript property
lookup; objects never carry duplicate keys). -/
def lookupField (key : String) : List (String × Json) → Option Json
  | [] => none
  | (k, v) :: fs => if k = key then some v else lookupField key fs

/-- Model of `ChangeSummarySchema.safeParse`: the zod schema requires an
object whose `isWorthToReport` is a boolean and whose `reportedChanges` is a
string (any string, including the empty one); extra keys are ignored.  On
failure the returned message describes the failing shape, standing in for
`ZodError.message`. -/
def safeParseChangeSummary : Json → Except String ChangeSummaryResult
  | .obj fields =>
    match lookupField "isWorthToReport" fields, lookupField "reportedChanges" fields with
    | some (.bool b), some (.str s) => .ok ⟨b, s⟩
    | _, _ => .error "invalid_type at isWorthToReport or reportedChanges"
  | _ => .error "invalid_type: expected object"

/-- `generateChangeSummary` from `src/aiProcessor.ts`.  The AI collaborator's
outcome (`generateObject` resolving to a raw structured value, or throwing)
is a parameter.  The second component records the user message sent to the
collaborator, `none` when the collaborator was not invoked. -/
def generateChangeSummary (changes : List Change) (aiResponse : Except JsError Json) :
    ChangeSummaryResult × Option String :=
  let actualChanges := changes.filter fun c => c.added || c.removed
  if actualChanges.length = 0 then (defaultNoChangesResult, none)
  else
    let formattedDiff := formatDiffForAI actualChanges
    let truncatedDiff := truncateDiff formattedDiff
    match aiResponse with
    | .error _ => (defaultErrorResult, some truncatedDiff)
    | .ok object =>
      match safeParseChangeSummary object with
      | .ok parsedResult => (parsedResult, some truncatedDiff)
      | .error m =>
        (⟨false, "Error: AI response did not match expected format. Details: " ++ m ++ ". "
            ++ defaultErrorResult.reportedChanges⟩,
          some truncatedDiff)

/-- One `console.log` / `console.warn` / `console.error` call; `error` calls
carry a second detail argument (empty when absent). -/
inductive ConsoleEvent where
  | log (msg : String)
  | warn (msg : String)
  | error (msg : String) (detail : String)
deriving DecidableEq, Repr

/-- The credentials the notifier reads from `config`. -/
structure NotifierConfig where
  telegramBotToken : String
  telegramChatId : String
deriving DecidableEq, Repr

/-- The notifier module's lazily-initialized client state:
`botInstance`/`botInitializationError`/`isBotInitialized` from
`src/notifier.ts`. -/
structure BotModuleState where
  isBotInitialized : Bool
  botInstance : Option Unit
  botInitializationError : Option JsError
deriving DecidableEq, Repr

/-- Module state at process start: initialization not yet attempted. -/
def initialBotModuleState : BotModuleState := ⟨false, none, none⟩

/-- `getBotInstance` from `src/notifier.ts`.  The Telegram client
constructor's outcome is a parameter (it is only consulted on the first,
initializing call with both credentials present). -/
def getBotInstance (cfg : NotifierConfig) (constructorOutcome : Except JsError Unit)
    (st : BotModuleState) : BotModuleState × Option Unit × List ConsoleEvent :=
  if st.isBotInitialized then (st, st.botInstance, [])
  else if cfg.telegramBotToken != "" && cfg.telegramChatId != "" then
    match constructorOutcome with
    | .ok _ => (⟨true, some (), none⟩, some (), [.log "Telegram bot initialized on first use."])
    | .error e => (⟨true, none, some e⟩, none, [.error "Failed to initialize Telegram bot:" e.message])
  else
    (⟨true, none, none⟩, none,
      [.warn "Telegram bot token or chat ID not provided. Telegram notifications disabled."])

/-- `sendTelegramNotification` from `src/notifier.ts`.  The provider send
outcome is a parameter (consulted only in the `Ready` state).  All failure
modes are handled internally: the function is total and returns the updated
module state together with everything it logged. -/
def sendTelegramNotification (cfg : NotifierConfig) (constructorOutcome : Except JsError Unit)
    (sendOutcome : Except JsError Unit) (message : String) (st : BotModuleState) :
    BotModuleState × List ConsoleEvent :=
  match getBotInstance cfg constructorOutcome st with
  | (st', none, initLogs) =>
    let reason :=
      if st'.botInitializationError.isSome then "bot failed to initialize"
      else "notifications are disabled"
    let skipLogs :=
      [ConsoleEvent.log ("Telegram " ++ reason ++ ". Skipping notification."),
       ConsoleEvent.log ("[Telegram Notification Skipped]:\n" ++ message)]
    let initErrLogs :=
      match st'.botInitializationError with
      | some e => [ConsoleEvent.error "Initialization error details:" e.message]
      | none => []
    (st', initLogs ++ skipLogs ++ initErrLogs)
  | (st', some _, initLogs) =>
    let sendingLog := ConsoleEvent.log ("Sending notification to Telegram chat ID: " ++ cfg.telegramChatId)
    match sendOutcome with
    | .ok _ => (st', initLogs ++ [sendingLog, .log "Successfully sent notification to Telegram."])
    | .error e =>
      (st', initLogs ++ [sendingLog,
        .error "Error sending Telegram notification:" e.message,
        .error ("[Failed Telegram Message]:\n" ++ message) ""])

/-- One call to an external collaborator observed during a cycle. -/
inductive CollabCall where
  | fetchCall
  | readStateCall
  | writeStateCall (state : Json)
  | summarizeCall (changes : List Change)
  | notifyCall (message : String)
deriving Repr

/-- Outcomes of the collaborators for one cycle of `checkJsonUpdates`. -/
structure CycleEnv where
  fetchResult : Except JsError Json
  readResult : Except JsError (Option Json)
  aiResponse : Except JsError Json
  writeResult : Except JsError Unit

/-- The validity check on fetched data:
`typeof currentState === 'object' && currentState !== null` (arrays are
`typeof 'object'` in JavaScript). -/
def isValidJsonObjectShape : Json → Bool
  | .obj _ => true
  | .arr _ => true
  | _ => false

/-- The best-effort error notification text built in the orchestrator's
catch block. -/
def errorNotificationMessage (e : JsError) : String :=
  let errorMessage := e.message
  let escapedError := escapeMarkdownV2 (errorMessage.take 500)
  "*Error checking JSON updates*:\n\x60\x60\x60\n" ++ escapedError ++
    (if errorMessage.length > 500 then "...[truncated]" else "") ++ "\n\x60\x60\x60"

/-- Collaborator calls made by the catch block: the best-effort error
notification (the notifier itself never throws, so the inner catch around it
is unreachable). -/
def errorPathTrace (e : JsError) : List CollabCall :=
  [.notifyCall (errorNotificationMessage e)]

/-- The body of `checkJsonUpdates` (after the run guard has been taken), as
the ordered trace of collaborator calls it performs. -/
def checkJsonUpdatesBody (env : CycleEnv) : List CollabCall :=
  CollabCall.fetchCall ::
    match env.fetchResult with
    | .error e => errorPathTrace e
    | .ok currentState =>
      if isValidJsonObjectShape currentState then
        CollabCall.readStateCall ::
          match env.readResult with
          | .error e => errorPathTrace e
          | .ok none =>
            CollabCall.writeStateCall currentState ::
              (match env.writeResult with
               | .ok _ => []
               | .error e => errorPathTrace e)
          | .ok (some lastState) =>
            let changes := compareJson lastState currentState
            let actualChanges :=
              (match changes with | some cs => cs | none => []).filter fun c => c.added || c.removed
            if actualChanges.length > 0 then
              CollabCall.summarizeCall actualChanges ::
                (let aiResult := (generateChangeSummary actualChanges env.aiResponse).1
                 (if aiResult.isWorthToReport then
                    [CollabCall.notifyCall
                      ("*JSON Update Detected*\n\n" ++ escapeMarkdownV2 aiResult.reportedChanges)]
                  else []) ++
                   CollabCall.writeStateCall currentState ::
                     (match env.writeResult with
                      | .ok _ => []
                      | .error e => errorPathTrace e))
            else []
      else errorPathTrace ⟨"Fetched data is not a valid JSON object."⟩

/-- `checkJsonUpdates` from the orchestrator: given the run-guard flag
(`isJobRunning`) at entry, returns the flag at exit and the collaborator
calls performed.  If a cycle is already running, it returns immediately;
otherwise the `finally` clause resets the flag on every exit path. -/
def checkJsonUpdates (isJobRunning : Bool) (env : CycleEnv) : Bool × List CollabCall :=
  if isJobRunning then (isJobRunning, [])
  else (false, checkJsonUpdatesBody env)

def isJsonWs (c : Char) : Bool := c = ' ' || c = '\n' || c = '\t' || c = '\r'

def skipWs (l : List Char) : List Char := l.dropWhile isJsonWs

def isDigitChar (c : Char) : Bool := 48 ≤ c.toNat && c.toNat ≤ 57

def isNumChar (c : Char) : Bool :=
  isDigitChar c || c = '-' || c = '+' || c = '.' || c = 'e' || c = 'E'

/-- Consume the integer part of a JSON numeral: `0`, or a nonzero digit
followed by digits. -/
def chompInt : List Char → Option (List Char)
  | [] => none
  | c :: rest =>
    if c = '0' then some rest
    else if isDigitChar c then some (rest.dropWhile isDigitChar) else none

/-- Consume an optional fraction part: `.` followed by one or more digits. -/
def chompFrac : List Char → Option (List Char)
  | [] => some []
  | c :: rest =>
    if c = '.' then
      match rest with
      | c2 :: r2 => if isDigitChar c2 then some (r2.dropWhile isDigitChar) else none
      | [] => none
    else some (c :: rest)

/-- Consume an optional exponent part: `e`/`E`, optional sign, digits. -/
def chompExp : List Char → Option (List Char)
  | [] => some []
  | c :: rest =>
    if c = 'e' || c = 'E' then
      match (match rest with
             | s :: r2 => if s = '+' || s = '-' then r2 else rest
             | [] => []) with
      | d :: r3 => if isDigitChar d then some (r3.dropWhile isDigitChar) else none
      | [] => none
    else some (c :: rest)

/-- Whether a token is a syntactically valid JSON numeral. -/
def numValid (l : List Char) : Bool :=
  match chompInt (if l.head? = some '-' then l.tail else l) with
  | none => false
  | some l2 =>
    match chompFrac l2 with
    | none => false
    | some l3 =>
      match chompExp l3 with
      | none => false
      | some l4 => l4.isEmpty

def hexVal (c : Char) : Option Nat :=
  if 48 ≤ c.toNat && c.toNat ≤ 57 then some (c.toNat - 48)
  else if 97 ≤ c.toNat && c.toNat ≤ 102 then some (c.toNat - 87)
  else if 65 ≤ c.toNat && c.toNat ≤ 70 then some (c.toNat - 55)
  else none

mutual

/-- Parse the body of a JSON string literal (after the opening quote) up to
and including the closing quote, decoding escape sequences as `JSON.parse`
does; returns the decoded characters and the remaining input. -/
def parseStringBody : List Char → Option (List Char × List Char)
  | [] => none
  | c :: rest =>
    if c = '"' then some ([], rest)
    else if c = '\\' then parseEscape rest
    else (parseStringBody rest).map fun p => (c :: p.1, p.2)

/-- Parse the remainder of an escape sequence (after the backslash). -/
def parseEscape : List Char → Option (List Char × List Char)
  | '"' :: r => (parseStringBody r).map fun p => ('"' :: p.1, p.2)
  | '\\' :: r => (parseStringBody r).map fun p => ('\\' :: p.1, p.2)
  | '/' :: r => (parseStringBody r).map fun p => ('/' :: p.1, p.2)
  | 'b' :: r => (parseStringBody r).map fun p => ('\x08' :: p.1, p.2)
  | 'f' :: r => (parseStringBody r).map fun p => ('\x0c' :: p.1, p.2)
  | 'n' :: r => (parseStringBody r).map fun p => ('\n' :: p.1, p.2)
  | 'r' :: r => (parseStringBody r).map fun p => ('\r' :: p.1, p.2)
  | 't' :: r => (parseStringBody r).map fun p => ('\t' :: p.1, p.2)
  | 'u' :: h1 :: h2 :: h3 :: h4 :: r =>
    (match hexVal h1, hexVal h2, hexVal h3, hexVal h4 with
     | some a, some b, some c, some d =>
       (parseStringBody r).map fun p =>
         (Char.ofNat (((a * 16 + b) * 16 + c) * 16 + d) :: p.1, p.2)
     | _, _, _, _ => none)
  | _ => none

end

mutual

/-- Model of `JSON.parse` on one JSON value: recursive descent over the
input, fuel-indexed for termination (the fuel only bounds the nesting
recursion; `parseJson` supplies enough for any input).  Returns the parsed
value and the unconsumed input. -/
def parseValue : Nat → List Char → Option (Json × List Char)
  | 0, _ => none
  | fuel + 1, input =>
    match skipWs input with
    | [] => none
    | c :: rest =>
      if c = 'n' then
        (match rest with
         | 'u' :: 'l' :: 'l' :: r => some (.null, r)
         | _ => none)
      else if c = 't' then
        (match rest with
         | 'r' :: 'u' :: 'e' :: r => some (.bool true, r)
         | _ => none)
      else if c = 'f' then
        (match rest with
         | 'a' :: 'l' :: 's' :: 'e' :: r => some (.bool false, r)
         | _ => none)
      else if c = '"' then (parseStringBody rest).map fun p => (.str ⟨p.1⟩, p.2)
      else if c = '[' then
        (if (skipWs rest).head? = some ']' then some (.arr [], (skipWs rest).tail)
         else (parseElems fuel rest).map fun p => (.arr p.1, p.2))
      else if c = '\x7b' then
        (if (skipWs rest).head? = some '\x7d' then some (.obj [], (skipWs rest).tail)
         else (parseMembers fuel rest).map fun p => (.obj p.1, p.2))
      else if isNumChar c then
        (let tok := (c :: rest).takeWhile isNumChar
         if numValid tok then some (.num ⟨tok⟩, (c :: rest).dropWhile isNumChar) else none)
      else none

/-- Parse one or more comma-separated array elements followed by `]`. -/
def parseElems : Nat → List Char → Option (List Json × List Char)
  | 0, _ => none
  | fuel + 1, input =>
    match parseValue fuel input with
    | none => none
    | some (x, r) =>
      match skipWs r with
      | ',' :: r2 => (parseElems fuel r2).map fun p => (x :: p.1, p.2)
      | ']' :: r2 => some ([x], r2)
      | _ => none

/-- Parse one or more comma-separated object members followed by the closing
brace. -/
def parseMembers : Nat → List Char → Option (List (String × Json) × List Char)
  | 0, _ => none
  | fuel + 1, input =>
    match skipWs input with
    | '"' :: r =>
      (match parseStringBody r with
       | none => none
       | some (k, r1) =>
         match skipWs r1 with
         | ':' :: r2 =>
           (match parseValue fuel r2 with
            | none => none
            | some (v, r3) =>
              match skipWs r3 with
              | ',' :: r4 => (parseMembers fuel r4).map fun p => ((⟨k⟩, v) :: p.1, p.2)
              | '\x7d' :: r4 => some ([(⟨k⟩, v)], r4)
              | _ => none)
         | _ => none)
    | _ => none

end

/-- `JSON.parse`: parse the whole document, requiring only trailing
whitespace after the value. -/
def parseJson (data : String) : Option Json :=
  match parseValue (data.data.length + 1) data.data with
  | some (j, rest) => if (skipWs rest).isEmpty then some j else none
  | none => none

/-- The persisted state file: `none` models a missing file (`ENOENT`). -/
structure StateFile where
  content : Option String
deriving Repr

/-- `writeState` from `src/storage.ts`: serialize with
`JSON.stringify(state, null, 2)` and overwrite the file wholesale. -/
def writeState (state : Json) (_fs : StateFile) : StateFile :=
  StateFile.mk (some (prettyJson "" state))

/-- `readLastState` from `src/storage.ts`: a missing file is the normal
first-run condition (`none`); a file that fails to parse raises a
`SyntaxError`, which is not `ENOENT` and therefore propagates. -/
def readLastState (fs : StateFile) : Except JsError (Option Json) :=
  match fs.content with
  | none => .ok none
  | some data =>
    match parseJson data with
    | some state => .ok (some state)
    | none => .error ⟨"SyntaxError: Unexpected token in JSON"⟩

mutual

/-- Whether a `Json` value is in the image of `JSON.parse`: every numeral
token is grammatically valid.  (Strings and keys are unrestricted; the
character type already excludes lone surrogates.) -/
def wfJson : Json → Bool
  | .null => true
  | .bool _ => true
  | .num t => numValid t.data
  | .str _ => true
  | .arr xs => wfJsonList xs
  | .obj fs => wfJsonFields fs

def wfJsonList : List Json → Bool
  | [] => true
  | x :: xs => wfJson x && wfJsonList xs

def wfJsonFields : List (String × Json) → Bool
  | [] => true
  | (_, v) :: fs => wfJson v && wfJsonFields fs

end

mutual

/-- Fuel sufficient for `parseValue` to parse the serialization of a value. -/
def needFuel : Json → Nat
  | .arr xs => 1 + needFuelElems xs
  | .obj fs => 1 + needFuelMembers fs
  | _ => 1

def needFuelElems : List Json → Nat
  | [] => 0
  | x :: xs => 1 + needFuel x + needFuelElems xs

def needFuelMembers : List (String × Json) → Nat
  | [] => 0
  | (_, v) :: fs => 1 + needFuel v + needFuelMembers fs

end

mutual

/-- Two `Json` values are equal up to a permutation of object key insertion
order (recursively, at every object node). -/
def keyPerm : Json → Json → Prop
  | .null, .null => True
  | .bool a, .bool b => a = b
  | .num a, .num b => a = b
  | .str a, .str b => a = b
  | .arr xs, .arr ys => keyPermList xs ys
  | .obj fs, .obj gs => ∃ gs0, keyPermFields fs gs0 ∧ gs0.Perm gs
  | _, _ => False

def keyPermList : List Json → List Json → Prop
  | [], [] => True
  | x :: xs, y :: ys => keyPerm x y ∧ keyPermList xs ys
  | _, _ => False

def keyPermFields : List (String × Json) → List (String × Json) → Prop
  | [], [] => True
  | (k, v) :: fs, (l, w) :: gs => k = l ∧ keyPerm v w ∧ keyPermFields fs gs
  | _, _ => False

end

mutual

/-- No object in the value carries duplicate keys (JavaScript objects never
do). -/
def jsonNodupKeys : Json → Prop
  | .arr xs => jsonNodupKeysList xs
  | .obj fs => (fs.map Prod.fst).Nodup ∧ jsonNodupKeysFields fs
  | _ => True

def jsonNodupKeysList : List Json → Prop
  | [] => True
  | x :: xs => jsonNodupKeys x ∧ jsonNodupKeysList xs

def jsonNodupKeysFields : List (String × Json) → Prop
  | [] => True
  | (_, v) :: fs => jsonNodupKeys v ∧ jsonNodupKeysFields fs

end

/-- Key order between keyed pairs, as used by `sortByKey`. -/
def keyLe {α : Type} (p q : String × α) : Prop := strLe p.1 q.1 = true

/-- An association list sorted by key. -/
def SortedByKey {α : Type} (l : List (String × α)) : Prop := List.Pairwise keyLe l

/-! ## Theorems -/

/-! ## Foundational lemmas -/

theorem Json.strongInduction (P : Json → Prop)
    (hnull : P .null) (hbool : ∀ b, P (.bool b)) (hnum : ∀ t, P (.num t))
    (hstr : ∀ s, P (.str s))
    (harr : ∀ xs, (∀ x, x ∈ xs → P x) → P (.arr xs))
    (hobj : ∀ fs, (∀ kv, kv ∈ fs → P kv.2) → P (.obj fs)) :
    ∀ j, P j := by
  have key : ∀ n (j : Json), sizeOf j ≤ n → P j := by
    intro n
    induction n with
    | zero =>
      intro j h
      cases j <;> simp_arith at h
    | succ n ih =>
      intro j h
      match j with
      | .null => exact hnull
      | .bool b => exact hbool b
      | .num t => exact hnum t
      | .str s => exact hstr s
      | .arr xs =>
        refine harr xs (fun x hx => ih x ?_)
        have h1 := List.sizeOf_lt_of_mem hx
        simp_arith at h
        omega
      | .obj fs =>
        refine hobj fs (fun kv hkv => ih kv.2 ?_)
        have h1 := List.sizeOf_lt_of_mem hkv
        have h2 : sizeOf kv.2 < sizeOf kv := by
          cases kv; simp_arith
        simp_arith at h
        omega
  exact fun j => key (sizeOf j) j le_rfl

theorem Json.beq_iff : ∀ a b, Json.beq a b = true ↔ a = b := by
  intro a
  induction a using Json.strongInduction with
  | hnull => intro b; cases b <;> simp [Json.beq]
  | hbool x => intro b; cases b <;> simp [Json.beq]
  | hnum x => intro b; cases b <;> simp [Json.beq]
  | hstr x => intro b; cases b <;> simp [Json.beq]
  | harr xs ih =>
    intro b
    cases b with
    | arr ys =>
      simp only [Json.beq, Json.arr.injEq]
      induction xs generalizing ys with
      | nil => cases ys <;> simp [Json.beqList]
      | cons x xs ihl =>
        cases ys with
        | nil => simp [Json.beqList]
        | cons y ys =>
          simp only [Json.beqList, Bool.and_eq_true, List.cons.injEq]
          rw [ih x (by simp), ihl (fun z hz => ih z (by simp [hz])) ys]
    | null => simp [Json.beq]
    | bool b => simp [Json.beq]
    | num t => simp [Json.beq]
    | str s => simp [Json.beq]
    | obj fs => simp [Json.beq]
  | hobj fs ih =>
    intro b
    cases b with
    | obj gs =>
      simp only [Json.beq, Json.obj.injEq]
      induction fs generalizing gs with
      | nil => cases gs <;> simp [Json.beqFields]
      | cons f fs ihl =>
        cases gs with
        | nil => cases f; simp [Json.beqFields]
        | cons g gs =>
          cases f with
          | mk k v =>
            cases g with
            | mk l w =>
              simp only [Json.beqFields, Bool.and_eq_true, List.cons.injEq,
                Prod.mk.injEq, beq_iff_eq]
              rw [ih (k, v) (by simp), ihl (fun z hz => ih z (by simp [hz])) gs]
    | null => simp [Json.beq]
    | bool b => simp [Json.beq]
    | num t => simp [Json.beq]
    | str s => simp [Json.beq]
    | arr xs => simp [Json.beq]

instance : DecidableEq Json := fun a b => decidable_of_iff _ (Json.beq_iff a b)

deriving instance DecidableEq for CollabCall

theorem Json.beq_refl (a : Json) : Json.beq a a = true := (Json.beq_iff a a).mpr rfl

theorem Json.beqList_iff (xs ys : List Json) : Json.beqList xs ys = true ↔ xs = ys := by
  induction xs generalizing ys with
  | nil => cases ys <;> simp [Json.beqList]
  | cons x xs ih =>
    cases ys with
    | nil => simp [Json.beqList]
    | cons y ys =>
      simp only [Json.beqList, Bool.and_eq_true, List.cons.injEq, ih, Json.beq_iff]

theorem Json.beqFields_iff (fs gs : List (String × Json)) :
    Json.beqFields fs gs = true ↔ fs = gs := by
  induction fs generalizing gs with
  | nil => cases gs <;> simp [Json.beqFields]
  | cons f fs ih =>
    cases gs with
    | nil => cases f; simp [Json.beqFields]
    | cons g gs =>
      cases f with
      | mk k v =>
        cases g with
        | mk l w =>
          simp only [Json.beqFields, Bool.and_eq_true, List.cons.injEq, Prod.mk.injEq,
            beq_iff_eq, ih, Json.beq_iff]

/-! ## Markdown escaping (claims C7 and C10) -/

theorem backslash_not_reserved : markdownV2Reserved.contains '\\' = false := by decide

theorem escapeMarkdownV2Core_idem :
    ∀ (l : List Char) (p : Option Char),
      escapeMarkdownV2Core p (escapeMarkdownV2Core p l) = escapeMarkdownV2Core p l := by
  intro l
  induction l with
  | nil => intro p; rfl
  | cons c rest ih =>
    intro p
    by_cases hcond : (markdownV2Reserved.contains c && p != some '\\') = true
    · rw [escapeMarkdownV2Core, if_pos hcond]
      have hc : markdownV2Reserved.contains c = true := by
        simpa using (Bool.and_elim_left hcond)
      rw [escapeMarkdownV2Core,
        if_neg (by intro hand; rw [backslash_not_reserved] at hand; simp at hand)]
      rw [escapeMarkdownV2Core, if_neg (by simp)]
      rw [ih (some c)]
    · rw [escapeMarkdownV2Core, if_neg hcond]
      rw [escapeMarkdownV2Core, if_neg hcond]
      rw [ih (some c)]

/-- Claim C10: `escapeMarkdownV2` is idempotent — applying the escaping twice
along a notification path yields the same string as applying it once. -/
theorem c10_escapeMarkdownV2_idempotent (s : String) :
    escapeMarkdownV2 (escapeMarkdownV2 s) = escapeMarkdownV2 s := by
  unfold escapeMarkdownV2
  exact congrArg String.mk (escapeMarkdownV2Core_idem s.data none)

theorem escapeMarkdownV2Core_eq_positional :
    ∀ (l : List Char) (p : Option Char),
      escapeMarkdownV2Core p l =
        ((l.zip (p :: l.map some)).map fun pc =>
          if markdownV2Reserved.contains pc.1 && pc.2 != some '\\' then ['\\', pc.1]
          else [pc.1]).flatten := by
  intro l
  induction l with
  | nil => intro p; rfl
  | cons c rest ih =>
    intro p
    show escapeMarkdownV2Core p (c :: rest) = _
    rw [escapeMarkdownV2Core]
    by_cases hcond : (markdownV2Reserved.contains c && p != some '\\') = true
    · rw [if_pos hcond]
      simp only [List.map_cons, List.zip_cons_cons, List.flatten, if_pos hcond]
      rw [ih (some c)]
      rfl
    · rw [if_neg hcond]
      simp only [List.map_cons, List.zip_cons_cons, List.flatten, if_neg hcond]
      rw [ih (some c)]
      rfl

/-- Claim C7, counterexample: on the three-character input `\\.` (an escaped
backslash followed by a dot), the code leaves the dot unescaped — the regex
lookbehind skips escaping after *any* backslash character — whereas the
specified behavior (skip only after an *unescaped* backslash) escapes it. -/
theorem c7_counterexample :
    escapeMarkdownV2 "\\\\." ≠ escapeMarkdownV2Spec "\\\\." := by decide

/-- Claim C7 as amended: `escapeMarkdownV2` prefixes a backslash to each
occurrence of a reserved character except where the occurrence is directly
preceded by a backslash character (whether or not that backslash is itself
escaped), and leaves all other characters unchanged — stated through the
positional characterization `escapeMarkdownV2Positional`. -/
theorem c7_escapeMarkdownV2_characterization (s : String) :
    (escapeMarkdownV2 s).data = escapeMarkdownV2Positional s.data := by
  unfold escapeMarkdownV2 escapeMarkdownV2Positional
  exact escapeMarkdownV2Core_eq_positional s.data none

/-! ## Summarizer (claims C4, C5 and C9) -/

/-- Claim C5: applied to an absent ChangeSet (represented, as the data model
states, by the empty segment list) or to a ChangeSet with no added or
removed segments, `generateChangeSummary` short-circuits to
`{isWorthToReport: false, reportedChanges: "No changes detected."}` without
invoking the AI collaborator (no message is sent). -/
theorem c5_summarize_no_changes (changes : List Change) (ai : Except JsError Json)
    (h : changes.filter (fun c => c.added || c.removed) = []) :
    generateChangeSummary changes ai =
      (⟨false, "No changes detected."⟩, none) := by
  unfold generateChangeSummary
  rw [h]
  rfl

theorem c5_summarize_no_changes_witness :
    ([(⟨"ctx", false, false⟩ : Change)].filter (fun c => c.added || c.removed) = []) ∧
      generateChangeSummary [⟨"ctx", false, false⟩] (.error ⟨"provider down"⟩) =
        (⟨false, "No changes detected."⟩, none) ∧
      generateChangeSummary [] (.ok (.str "junk")) =
        (⟨false, "No changes detected."⟩, none) :=
  ⟨by decide,
   c5_summarize_no_changes [⟨"ctx", false, false⟩] (.error ⟨"provider down"⟩) (by decide),
   c5_summarize_no_changes [] (.ok (.str "junk")) (by decide)⟩

/-- Claim C4: `generateChangeSummary` fails closed (it is a total function:
every collaborator outcome, including a thrown error, is mapped to a
result).  When the AI call errors it returns exactly
`{isWorthToReport: false, reportedChanges: "Error generating change summary."}`,
and when the collaborator resolves with a structurally invalid object it
returns `isWorthToReport: false` with a `reportedChanges` string that
embeds the validation failure detail. -/
theorem c4_summarizer_fails_closed (changes : List Change) (e : JsError) (object : Json)
    (m : String) (h : changes.filter (fun c => c.added || c.removed) ≠ []) :
    (generateChangeSummary changes (.error e)).1 = defaultErrorResult ∧
    (safeParseChangeSummary object = .error m →
      (generateChangeSummary changes (.ok object)).1.isWorthToReport = false ∧
      (generateChangeSummary changes (.ok object)).1.reportedChanges =
        "Error: AI response did not match expected format. Details: " ++ m
          ++ ". Error generating change summary." ∧
      ∃ pre post,
        (generateChangeSummary changes (.ok object)).1.reportedChanges = pre ++ m ++ post) := by
  have hlen : ¬ (changes.filter (fun c => c.added || c.removed)).length = 0 := by
    intro h0
    exact h (List.length_eq_zero.mp h0)
  have hassoc : ∀ a b c : String, a ++ b ++ c = a ++ (b ++ c) := by
    intro a b c
    apply String.ext
    simp [String.data_append]
  constructor
  · unfold generateChangeSummary
    rw [if_neg hlen]
  · intro hparse
    unfold generateChangeSummary
    rw [if_neg hlen]
    simp only [hparse]
    refine ⟨trivial, ?_, ?_⟩
    · show "Error: AI response did not match expected format. Details: " ++ m
          ++ ". " ++ defaultErrorResult.reportedChanges = _
      rw [hassoc ("Error: AI response did not match expected format. Details: " ++ m)]
      rfl
    · refine ⟨"Error: AI response did not match expected format. Details: ",
        ". " ++ defaultErrorResult.reportedChanges, ?_⟩
      show "Error: AI response did not match expected format. Details: " ++ m
          ++ ". " ++ defaultErrorResult.reportedChanges = _
      rw [hassoc ("Error: AI response did not match expected format. Details: " ++ m)]

theorem c4_summarizer_fails_closed_witness :
    ([(⟨"\"a\": 1", true, false⟩ : Change)].filter (fun c => c.added || c.removed) ≠ []) ∧
      safeParseChangeSummary (.str "not an object") = .error "invalid_type: expected object" ∧
      (generateChangeSummary [⟨"\"a\": 1", true, false⟩] (.error ⟨"AI service failed"⟩)).1 =
        defaultErrorResult ∧
      (generateChangeSummary [⟨"\"a\": 1", true, false⟩] (.ok (.str "not an object"))).1.isWorthToReport
        = false := by
  have hne : ([(⟨"\"a\": 1", true, false⟩ : Change)].filter (fun c => c.added || c.removed) ≠ []) := by
    decide
  have hp : safeParseChangeSummary (.str "not an object") = .error "invalid_type: expected object" := rfl
  have main := c4_summarizer_fails_closed [⟨"\"a\": 1", true, false⟩] ⟨"AI service failed"⟩
    (.str "not an object") "invalid_type: expected object" hne
  exact ⟨hne, hp, main.1, (main.2 hp).1⟩

/-- Claim C9, counterexample: the zod schema only requires `reportedChanges`
to be a string, so an AI response carrying the empty string passes
validation and is returned as-is — the claimed invariant that every
returned `SummaryResult` has a non-empty `reportedChanges` fails. -/
theorem c9_counterexample :
    safeParseChangeSummary
        (.obj [("isWorthToReport", .bool true), ("reportedChanges", .str "")]) =
      .ok ⟨true, ""⟩ ∧
    (generateChangeSummary [⟨"\"a\": 1", true, false⟩]
        (.ok (.obj [("isWorthToReport", .bool true), ("reportedChanges", .str "")]))).1.reportedChanges
      = "" := by
  constructor
  · rfl
  · rfl

/-- Claim C9 as amended: every `SummaryResult` produced on the no-changes,
provider-error and validation-failure paths has a non-empty
`reportedChanges`; on the AI-success path the validated response is
returned unchanged, so the result's `reportedChanges` is empty exactly when
the schema-valid response's string is empty. -/
theorem c9_reportedChanges_amended (changes : List Change) (ai : Except JsError Json) :
    0 < (generateChangeSummary changes ai).1.reportedChanges.length ∨
    (∃ object b, ai = Except.ok object ∧ safeParseChangeSummary object = .ok ⟨b, ""⟩ ∧
      (generateChangeSummary changes ai).1 = ⟨b, ""⟩) := by
  by_cases hlen : (changes.filter (fun c => c.added || c.removed)).length = 0
  · left
    unfold generateChangeSummary
    rw [if_pos hlen]
    decide
  · cases ai with
    | error e =>
      left
      unfold generateChangeSummary
      rw [if_neg hlen]
      show 0 < defaultErrorResult.reportedChanges.length
      decide
    | ok object =>
      cases hp : safeParseChangeSummary object with
      | error m =>
        left
        unfold generateChangeSummary
        rw [if_neg hlen]
        simp only [hp]
        show 0 < ("Error: AI response did not match expected format. Details: " ++ m ++ ". "
          ++ defaultErrorResult.reportedChanges).length
        rw [String.length_append, String.length_append, String.length_append]
        have h0 : 0 < "Error: AI response did not match expected format. Details: ".length := by
          decide
        omega
      | ok r =>
        cases r with
        | mk b s =>
          by_cases hs : s = ""
          · right
            refine ⟨object, b, rfl, by rw [hp, hs], ?_⟩
            unfold generateChangeSummary
            rw [if_neg hlen]
            simp only [hp]
            rw [hs]
          · left
            unfold generateChangeSummary
            rw [if_neg hlen]
            simp only [hp]
            show 0 < s.length
            cases s with
            | mk data =>
              cases data with
              | nil => exact absurd rfl hs
              | cons c cs => simp [String.length]

/-! ## Notifier (claim C6) -/

/-- Claim C6: `sendTelegramNotification` never throws — it is a total
function from every message, configuration, collaborator outcome and client
state to an updated state plus logs (every failure mode of the modelled
collaborators is consumed internally).  In the `Disabled` state (no client,
no recorded construction error) it logs that the notification was skipped
together with the message content; in the `FailedInit` state (no client,
construction error recorded) it does the same and also logs the recorded
error; in the `Ready` state with a failing send it logs the send error and
the undelivered message content. -/
theorem c6_notify_never_throws (cfg : NotifierConfig) (ctor send : Except JsError Unit)
    (message : String) (st : BotModuleState) :
    ((getBotInstance cfg ctor st).2.1 = none →
      (getBotInstance cfg ctor st).1.botInitializationError = none →
      ConsoleEvent.log "Telegram notifications are disabled. Skipping notification."
          ∈ (sendTelegramNotification cfg ctor send message st).2 ∧
        ConsoleEvent.log ("[Telegram Notification Skipped]:\n" ++ message)
          ∈ (sendTelegramNotification cfg ctor send message st).2) ∧
    (∀ e, (getBotInstance cfg ctor st).2.1 = none →
      (getBotInstance cfg ctor st).1.botInitializationError = some e →
      ConsoleEvent.log "Telegram bot failed to initialize. Skipping notification."
          ∈ (sendTelegramNotification cfg ctor send message st).2 ∧
        ConsoleEvent.log ("[Telegram Notification Skipped]:\n" ++ message)
          ∈ (sendTelegramNotification cfg ctor send message st).2 ∧
        ConsoleEvent.error "Initialization error details:" e.message
          ∈ (sendTelegramNotification cfg ctor send message st).2) ∧
    (∀ e, (getBotInstance cfg ctor st).2.1 = some () → send = .error e →
      ConsoleEvent.error "Error sending Telegram notification:" e.message
          ∈ (sendTelegramNotification cfg ctor send message st).2 ∧
        ConsoleEvent.error ("[Failed Telegram Message]:\n" ++ message) ""
          ∈ (sendTelegramNotification cfg ctor send message st).2) := by
  rcases hg : getBotInstance cfg ctor st with ⟨st', bot, initLogs⟩
  refine ⟨?_, ?_, ?_⟩
  · intro hbot herr
    have hb : bot = none := hbot
    have he : st'.botInitializationError = none := herr
    subst hb
    unfold sendTelegramNotification
    rw [hg]
    simp [he]
  · intro e hbot herr
    have hb : bot = none := hbot
    have he : st'.botInitializationError = some e := herr
    subst hb
    unfold sendTelegramNotification
    rw [hg]
    simp [he]
  · intro e hbot hsend
    have hb : bot = some () := hbot
    subst hb hsend
    unfold sendTelegramNotification
    rw [hg]
    simp

theorem c6_notify_never_throws_witness :
    (ConsoleEvent.log "Telegram notifications are disabled. Skipping notification."
        ∈ (sendTelegramNotification ⟨"", ""⟩ (.ok ()) (.ok ()) "hello" initialBotModuleState).2) ∧
    (ConsoleEvent.error "Initialization error details:" "Invalid bot token"
        ∈ (sendTelegramNotification ⟨"T", "C"⟩ (.error ⟨"Invalid bot token"⟩) (.ok ()) "hello"
            initialBotModuleState).2) ∧
    (ConsoleEvent.error ("[Failed Telegram Message]:\n" ++ "hello") ""
        ∈ (sendTelegramNotification ⟨"T", "C"⟩ (.ok ()) (.error ⟨"ETIMEOUT"⟩) "hello"
            initialBotModuleState).2) := by
  refine ⟨?_, ?_, ?_⟩
  · exact ((c6_notify_never_throws ⟨"", ""⟩ (.ok ()) (.ok ()) "hello"
      initialBotModuleState).1 (by decide) (by decide)).1
  · exact (((c6_notify_never_throws ⟨"T", "C"⟩ (.error ⟨"Invalid bot token"⟩) (.ok ()) "hello"
      initialBotModuleState).2.1 ⟨"Invalid bot token"⟩ (by decide) (by decide)).2).2
  · exact ((c6_notify_never_throws ⟨"T", "C"⟩ (.ok ()) (.error ⟨"ETIMEOUT"⟩) "hello"
      initialBotModuleState).2.2 ⟨"ETIMEOUT"⟩ (by decide) rfl).2

/-! ## Comparer (claim C3): key order and sorting -/

theorem lexLe_refl : ∀ l : List Char, lexLe l l = true := by
  intro l
  induction l with
  | nil => rfl
  | cons a as ih => simp [lexLe, ih]

theorem lexLe_total : ∀ l1 l2 : List Char, lexLe l1 l2 = true ∨ lexLe l2 l1 = true := by
  intro l1
  induction l1 with
  | nil => intro l2; left; rfl
  | cons a as ih =>
    intro l2
    cases l2 with
    | nil => right; rfl
    | cons b bs =>
      by_cases hab : a.toNat < b.toNat
      · left; simp [lexLe, hab]
      · by_cases hba : b.toNat < a.toNat
        · right; simp [lexLe, hba]
        · rcases ih bs with h | h
          · left; simp [lexLe, hab, hba, h]
          · right; simp [lexLe, hab, hba, h]

theorem lexLe_trans : ∀ l1 l2 l3 : List Char,
    lexLe l1 l2 = true → lexLe l2 l3 = true → lexLe l1 l3 = true := by
  intro l1
  induction l1 with
  | nil => intro l2 l3 _ _; rfl
  | cons a as ih =>
    intro l2 l3 h12 h23
    cases l2 with
    | nil => simp [lexLe] at h12
    | cons b bs =>
      cases l3 with
      | nil => simp [lexLe] at h23
      | cons c cs =>
        rw [lexLe] at h12 h23 ⊢
        by_cases hab : a.toNat < b.toNat
        · rw [if_pos hab] at h12
          by_cases hbc : b.toNat < c.toNat
          · rw [if_pos (by omega : a.toNat < c.toNat)]
          · by_cases hcb : c.toNat < b.toNat
            · rw [if_neg hbc, if_pos hcb] at h23
              exact absurd h23 (by simp)
            · rw [if_pos (by omega : a.toNat < c.toNat)]
        · by_cases hba : b.toNat < a.toNat
          · rw [if_neg hab, if_pos hba] at h12
            exact absurd h12 (by simp)
          · rw [if_neg hab, if_neg hba] at h12
            by_cases hbc : b.toNat < c.toNat
            · rw [if_pos (by omega : a.toNat < c.toNat)]
            · by_cases hcb : c.toNat < b.toNat
              · rw [if_neg hbc, if_pos hcb] at h23
                exact absurd h23 (by simp)
              · rw [if_neg hbc, if_neg hcb] at h23
                rw [if_neg (by omega : ¬ a.toNat < c.toNat),
                  if_neg (by omega : ¬ c.toNat < a.toNat)]
                exact ih bs cs h12 h23

theorem charToNat_inj : ∀ a b : Char, a.toNat = b.toNat → a = b := by
  intro a b h
  have hv : a.val = b.val := UInt32.ext h
  cases a
  cases b
  simp only at hv
  simp [hv]

theorem lexLe_antisymm : ∀ l1 l2 : List Char,
    lexLe l1 l2 = true → lexLe l2 l1 = true → l1 = l2 := by
  intro l1
  induction l1 with
  | nil =>
    intro l2 _ h21
    cases l2 with
    | nil => rfl
    | cons b bs => simp [lexLe] at h21
  | cons a as ih =>
    intro l2 h12 h21
    cases l2 with
    | nil => simp [lexLe] at h12
    | cons b bs =>
      rw [lexLe] at h12 h21
      by_cases hab : a.toNat < b.toNat
      · rw [if_neg (by omega : ¬ b.toNat < a.toNat), if_pos hab] at h21
        exact absurd h21 (by simp)
      · by_cases hba : b.toNat < a.toNat
        · rw [if_neg hab, if_pos hba] at h12
          exact absurd h12 (by simp)
        · rw [if_neg hab, if_neg hba] at h12
          rw [if_neg hba, if_neg hab] at h21
          have hk : a = b := charToNat_inj a b (by omega)
          rw [hk, ih bs h12 h21]

theorem strLe_refl (a : String) : strLe a a = true := lexLe_refl a.data

theorem strLe_total (a b : String) : strLe a b = true ∨ strLe b a = true :=
  lexLe_total a.data b.data

theorem strLe_trans {a b c : String} (h1 : strLe a b = true) (h2 : strLe b c = true) :
    strLe a c = true := lexLe_trans a.data b.data c.data h1 h2

theorem strLe_antisymm {a b : String} (h1 : strLe a b = true) (h2 : strLe b a = true) :
    a = b := String.ext (lexLe_antisymm a.data b.data h1 h2)

theorem mem_insertByKey {α : Type} (p x : String × α) :
    ∀ l : List (String × α), x ∈ insertByKey p l ↔ x = p ∨ x ∈ l := by
  intro l
  induction l with
  | nil => simp [insertByKey]
  | cons q qs ih =>
    by_cases h : strLe p.1 q.1 = true
    · simp [insertByKey, h]
    · simp only [insertByKey, if_neg h, List.mem_cons, ih]
      tauto

theorem insertByKey_perm {α : Type} (p : String × α) :
    ∀ l : List (String × α), (insertByKey p l).Perm (p :: l) := by
  intro l
  induction l with
  | nil => simp [insertByKey]
  | cons q qs ih =>
    by_cases h : strLe p.1 q.1 = true
    · simp [insertByKey, h]
    · rw [insertByKey, if_neg h]
      exact (List.Perm.cons q ih).trans (List.Perm.swap p q qs)

theorem sortByKey_perm {α : Type} : ∀ l : List (String × α), (sortByKey l).Perm l := by
  intro l
  induction l with
  | nil => simp [sortByKey]
  | cons p ps ih =>
    rw [sortByKey]
    exact (insertByKey_perm p (sortByKey ps)).trans (List.Perm.cons p ih)

theorem pairwise_insertByKey {α : Type} (p : String × α) :
    ∀ l : List (String × α), SortedByKey l → SortedByKey (insertByKey p l) := by
  intro l
  induction l with
  | nil => intro _; simp [insertByKey, SortedByKey]
  | cons q qs ih =>
    intro hs
    rcases (List.pairwise_cons.mp hs) with ⟨hq, hqs⟩
    by_cases h : strLe p.1 q.1 = true
    · rw [insertByKey, if_pos h]
      refine List.pairwise_cons.mpr ⟨?_, hs⟩
      intro x hx
      rcases List.mem_cons.mp hx with rfl | hx'
      · exact h
      · exact strLe_trans h (hq x hx')
    · rw [insertByKey, if_neg h]
      refine List.pairwise_cons.mpr ⟨?_, ih hqs⟩
      intro x hx
      rcases (mem_insertByKey p x qs).mp hx with hxp | hx'
      · subst hxp
        rcases strLe_total x.1 q.1 with hpq | hqp
        · exact absurd hpq h
        · exact hqp
      · exact hq x hx'

theorem sortByKey_sorted {α : Type} : ∀ l : List (String × α), SortedByKey (sortByKey l) := by
  intro l
  induction l with
  | nil => simp [sortByKey, SortedByKey]
  | cons p ps ih => exact pairwise_insertByKey p (sortByKey ps) ih

theorem sortByKey_of_sorted {α : Type} : ∀ l : List (String × α), SortedByKey l → sortByKey l = l := by
  intro l
  induction l with
  | nil => intro _; rfl
  | cons p ps ih =>
    intro hs
    rcases (List.pairwise_cons.mp hs) with ⟨hp, hps⟩
    rw [sortByKey, ih hps]
    cases ps with
    | nil => rfl
    | cons q qs =>
      rw [insertByKey, if_pos (show strLe p.1 q.1 = true from hp q (by simp))]

theorem sortByKey_idem {α : Type} (l : List (String × α)) :
    sortByKey (sortByKey l) = sortByKey l :=
  sortByKey_of_sorted _ (sortByKey_sorted l)

theorem insertByKey_map_val {α β : Type} (g : α → β) (p : String × α) :
    ∀ l : List (String × α),
      insertByKey (p.1, g p.2) (l.map fun q => (q.1, g q.2)) =
        (insertByKey p l).map fun q => (q.1, g q.2) := by
  intro l
  induction l with
  | nil => rfl
  | cons q qs ih =>
    by_cases h : strLe p.1 q.1 = true
    · simp [insertByKey, h]
    · simp [insertByKey, h, ih]

theorem sortByKey_map_val {α β : Type} (g : α → β) :
    ∀ l : List (String × α),
      sortByKey (l.map fun q => (q.1, g q.2)) = (sortByKey l).map fun q => (q.1, g q.2) := by
  intro l
  induction l with
  | nil => rfl
  | cons p ps ih =>
    rw [List.map_cons, sortByKey, sortByKey, ih, insertByKey_map_val]

theorem sorted_perm_nodupKeys_unique {α : Type} :
    ∀ l1 l2 : List (String × α), l1.Perm l2 → SortedByKey l1 → SortedByKey l2 →
      (l1.map Prod.fst).Nodup → l1 = l2 := by
  intro l1
  induction l1 with
  | nil =>
    intro l2 hperm _ _ _
    exact (List.perm_nil.mp hperm.symm).symm
  | cons p t1 ih =>
    intro l2 hperm hs1 hs2 hnd
    cases l2 with
    | nil => exact absurd (List.perm_nil.mp hperm) (by simp)
    | cons q t2 =>
      rcases List.pairwise_cons.mp hs1 with ⟨hp1, hs1'⟩
      rcases List.pairwise_cons.mp hs2 with ⟨hq2, hs2'⟩
      have hpq : p = q := by
        have hpmem : p ∈ q :: t2 := hperm.mem_iff.mp (by simp)
        rcases List.mem_cons.mp hpmem with rfl | hpt2
        · rfl
        · have hqmem : q ∈ p :: t1 := hperm.symm.mem_iff.mp (by simp)
          rcases List.mem_cons.mp hqmem with rfl | hqt1
          · rfl
          · have h1 : strLe p.1 q.1 = true := hp1 q hqt1
            have h2 : strLe q.1 p.1 = true := hq2 p hpt2
            have hkeys : p.1 = q.1 := strLe_antisymm h1 h2
            have hnodup2 : ((q :: t2).map Prod.fst).Nodup :=
              (hperm.map Prod.fst).nodup_iff.mp hnd
            rcases List.pairwise_cons.mp hnodup2 with ⟨hqk, _⟩
            have hqmem2 : q.1 ∈ t2.map Prod.fst := by
              rw [← hkeys]
              exact List.mem_map_of_mem Prod.fst hpt2
            exact absurd rfl (hqk q.1 hqmem2)
      subst hpq
      have htail : t1.Perm t2 := List.Perm.cons_inv hperm
      rcases List.pairwise_cons.mp hnd with ⟨_, hnd'⟩
      rw [ih t2 htail hs1' hs2' hnd']

theorem sortByKey_perm_congr {α : Type} (l1 l2 : List (String × α)) (hperm : l1.Perm l2)
    (hnd : (l1.map Prod.fst).Nodup) : sortByKey l1 = sortByKey l2 := by
  apply sorted_perm_nodupKeys_unique
  · exact (sortByKey_perm l1).trans (hperm.trans (sortByKey_perm l2).symm)
  · exact sortByKey_sorted l1
  · exact sortByKey_sorted l2
  · exact ((sortByKey_perm l1).map Prod.fst).nodup_iff.mpr hnd

/-! ## Comparer (claim C3): canonical serialization -/

theorem stableStringifyFields_eq_map : ∀ fs : List (String × Json),
    stableStringifyFields fs = fs.map fun p => (p.1, stableStringify p.2) := by
  intro fs
  induction fs with
  | nil => rfl
  | cons f fs ih => cases f; simp [stableStringifyFields, ih]

theorem canonFields_eq_map : ∀ fs : List (String × Json),
    canonFields fs = fs.map fun p => (p.1, canon p.2) := by
  intro fs
  induction fs with
  | nil => rfl
  | cons f fs ih => cases f; simp [canonFields, ih]

theorem stableStringifyFields_sortByKey (fs : List (String × Json)) :
    stableStringifyFields (sortByKey fs) = sortByKey (stableStringifyFields fs) := by
  rw [stableStringifyFields_eq_map, stableStringifyFields_eq_map, sortByKey_map_val]

theorem stableStringify_canon : ∀ j, stableStringify (canon j) = stableStringify j := by
  intro j
  induction j using Json.strongInduction with
  | hnull => rfl
  | hbool b => rfl
  | hnum t => rfl
  | hstr s => rfl
  | harr xs ih =>
    have hlist : stableStringifyList (canonList xs) = stableStringifyList xs := by
      induction xs with
      | nil => rfl
      | cons x xs ihl =>
        rw [canonList, stableStringifyList, stableStringifyList,
          ih x (by simp), ihl (fun z hz => ih z (by simp [hz]))]
    simp only [canon, stableStringify, hlist]
  | hobj fs ih =>
    have hfields : stableStringifyFields (canonFields fs) = stableStringifyFields fs := by
      induction fs with
      | nil => rfl
      | cons f fs ihl =>
        cases f with
        | mk k v =>
          rw [canonFields, stableStringifyFields, stableStringifyFields]
          rw [show stableStringify (canon v) = stableStringify v from ih (k, v) (by simp)]
          rw [ihl (fun z hz => ih z (by simp [hz]))]
    simp only [canon, stableStringify]
    rw [stableStringifyFields_sortByKey, sortByKey_idem, hfields]

/-! ## Comparer (claim C3): the structural diff -/

theorem Json.beqList_refl (xs : List Json) : Json.beqList xs xs = true :=
  (Json.beqList_iff xs xs).mpr rfl

theorem Json.beqFields_refl (fs : List (String × Json)) : Json.beqFields fs fs = true :=
  (Json.beqFields_iff fs fs).mpr rfl

theorem structDiff_self : ∀ o : Json,
    (structDiff o o).filter (fun c => c.added || c.removed) = [] := by
  intro o
  cases o <;>
    simp [structDiff, Json.beq_refl, Json.beqList_refl, Json.beqFields_refl]

theorem dropWhile_eq_self_of_takeWhile_nil {α : Type} (p : α → Bool) (l : List α)
    (h : l.takeWhile p = []) : l.dropWhile p = l := by
  cases l with
  | nil => rfl
  | cons a l =>
    rw [List.takeWhile_cons] at h
    by_cases hpa : p a = true
    · rw [if_pos hpa] at h
      cases h
    · simp only [List.dropWhile_cons, hpa]
      simp at hpa
      simp [hpa]

theorem diffElems_filter_nil :
    ∀ xs ys : List Json,
      (∀ x, x ∈ xs → ∀ n, (structDiff x n).filter (fun c => c.added || c.removed) = [] → x = n) →
      (diffElems xs ys).filter (fun c => c.added || c.removed) = [] → xs = ys := by
  intro xs
  induction xs with
  | nil =>
    intro ys _ h
    cases ys with
    | nil => rfl
    | cons y ys => simp [diffElems] at h
  | cons x xs ih =>
    intro ys hIH h
    cases ys with
    | nil => simp [diffElems] at h
    | cons y ys =>
      rw [diffElems, List.filter_append] at h
      rcases List.append_eq_nil.mp h with ⟨h1, h2⟩
      rw [hIH x (by simp) y h1, ih ys (fun z hz => hIH z (by simp [hz])) h2]

theorem diffMembers_filter_nil :
    ∀ fs gs : List (String × Json),
      (∀ kv, kv ∈ fs →
        ∀ n, (structDiff kv.2 n).filter (fun c => c.added || c.removed) = [] → kv.2 = n) →
      (diffMembers fs gs).filter (fun c => c.added || c.removed) = [] → fs = gs := by
  intro fs
  induction fs with
  | nil =>
    intro gs _ h
    cases gs with
    | nil => rfl
    | cons g gs => simp [diffMembers] at h
  | cons f fs ih =>
    intro gs hIH h
    rw [diffMembers] at h
    cases ht : gs.takeWhile (fun g => strLt g.1 f.1) with
    | cons a t' =>
      rw [ht] at h
      simp [List.filter_append] at h
    | nil =>
      rw [ht, List.map_nil, List.nil_append] at h
      have hd : gs.dropWhile (fun g => strLt g.1 f.1) = gs :=
        dropWhile_eq_self_of_takeWhile_nil _ gs ht
      rw [hd] at h
      cases gs with
      | nil => simp at h
      | cons g rest =>
        simp only [] at h
        by_cases hk : f.1 = g.1
        · rw [if_pos hk] at h
          rw [List.filter_append] at h
          rcases List.append_eq_nil.mp h with ⟨h1, h2⟩
          have hv : f.2 = g.2 := hIH f (by simp) g.2 h1
          have hfs : fs = rest := ih rest (fun z hz => hIH z (by simp [hz])) h2
          cases f with
          | mk fk fv =>
            cases g with
            | mk gk gv =>
              simp only at hk hv
              rw [hk, hv, hfs]
        · rw [if_neg hk] at h
          simp at h

theorem structDiff_filter_nil : ∀ o n : Json,
    (structDiff o n).filter (fun c => c.added || c.removed) = [] → o = n := by
  intro o
  induction o using Json.strongInduction with
  | hnull =>
    intro n h
    cases n with
    | null => rfl
    | bool y => simp [structDiff, Json.beq] at h
    | num y => simp [structDiff, Json.beq] at h
    | str y => simp [structDiff, Json.beq] at h
    | arr ys => simp [structDiff, Json.beq] at h
    | obj gs => simp [structDiff, Json.beq] at h
  | hbool x =>
    intro n h
    cases n with
    | bool y =>
      by_cases hxy : x = y
      · rw [hxy]
      · simp [structDiff, Json.beq, hxy] at h
    | null => simp [structDiff, Json.beq] at h
    | num y => simp [structDiff, Json.beq] at h
    | str y => simp [structDiff, Json.beq] at h
    | arr ys => simp [structDiff, Json.beq] at h
    | obj gs => simp [structDiff, Json.beq] at h
  | hnum t =>
    intro n h
    cases n with
    | num y =>
      by_cases hxy : t = y
      · rw [hxy]
      · simp [structDiff, Json.beq, hxy] at h
    | null => simp [structDiff, Json.beq] at h
    | bool y => simp [structDiff, Json.beq] at h
    | str y => simp [structDiff, Json.beq] at h
    | arr ys => simp [structDiff, Json.beq] at h
    | obj gs => simp [structDiff, Json.beq] at h
  | hstr s =>
    intro n h
    cases n with
    | str y =>
      by_cases hxy : s = y
      · rw [hxy]
      · simp [structDiff, Json.beq, hxy] at h
    | null => simp [structDiff, Json.beq] at h
    | bool y => simp [structDiff, Json.beq] at h
    | num y => simp [structDiff, Json.beq] at h
    | arr ys => simp [structDiff, Json.beq] at h
    | obj gs => simp [structDiff, Json.beq] at h
  | harr xs ih =>
    intro n h
    cases n with
    | arr ys =>
      by_cases hb : Json.beqList xs ys = true
      · rw [(Json.beqList_iff xs ys).mp hb]
      · rw [structDiff, if_neg hb] at h
        rw [diffElems_filter_nil xs ys ih h]
    | null => simp [structDiff, Json.beq] at h
    | bool b => simp [structDiff, Json.beq] at h
    | num t => simp [structDiff, Json.beq] at h
    | str s => simp [structDiff, Json.beq] at h
    | obj gs => simp [structDiff, Json.beq] at h
  | hobj fs ih =>
    intro n h
    cases n with
    | obj gs =>
      by_cases hb : Json.beqFields fs gs = true
      · rw [(Json.beqFields_iff fs gs).mp hb]
      · rw [structDiff, if_neg hb] at h
        rw [diffMembers_filter_nil fs gs ih h]
    | null => simp [structDiff, Json.beq] at h
    | bool b => simp [structDiff, Json.beq] at h
    | num t => simp [structDiff, Json.beq] at h
    | str s => simp [structDiff, Json.beq] at h
    | arr xs => simp [structDiff, Json.beq] at h

/-! ## Comparer (claim C3): compareJson -/

theorem compareJson_some_spec (a b : Json) (cs : List Change)
    (h : compareJson a b = some cs) :
    cs ≠ [] ∧ cs.filter (fun c => c.added || c.removed) = cs ∧
      stableStringify a ≠ stableStringify b := by
  unfold compareJson at h
  by_cases hss : stableStringify a = stableStringify b
  · rw [if_pos hss] at h
    cases h
  · rw [if_neg hss] at h
    simp only at h
    by_cases hlen :
        ((diffJson a b).filter fun part => part.added || part.removed).length = 0
    · rw [if_pos hlen] at h
      cases h
    · rw [if_neg hlen] at h
      have hcs : cs = (diffJson a b).filter fun part => part.added || part.removed :=
        (Option.some.injEq _ _ ▸ h).symm
      refine ⟨?_, ?_, hss⟩
      · intro hnil
        rw [hcs] at hnil
        exact hlen (by rw [hnil]; rfl)
      · rw [hcs, List.filter_filter]
        simp

theorem compareJson_nonempty_of_ne (a b : Json)
    (hss : stableStringify a ≠ stableStringify b) :
    ∃ cs, compareJson a b = some cs ∧ cs ≠ [] := by
  unfold compareJson
  rw [if_neg hss]
  simp only
  by_cases hlen : ((diffJson a b).filter fun part => part.added || part.removed).length = 0
  · exfalso
    have hfil : (diffJson a b).filter (fun part => part.added || part.removed) = [] :=
      List.length_eq_zero.mp hlen
    have hcanon : canon a = canon b := structDiff_filter_nil _ _ hfil
    exact hss (by
      rw [← stableStringify_canon a, ← stableStringify_canon b, hcanon])
  · rw [if_neg hlen]
    refine ⟨_, rfl, ?_⟩
    intro hnil
    exact hlen (by rw [hnil]; rfl)

theorem keyPermFields_keys : ∀ fs gs0 : List (String × Json),
    keyPermFields fs gs0 → fs.map Prod.fst = gs0.map Prod.fst := by
  intro fs
  induction fs with
  | nil =>
    intro gs0 h
    cases gs0 with
    | nil => rfl
    | cons g gs => simp [keyPermFields] at h
  | cons f fs ih =>
    intro gs0 h
    cases gs0 with
    | nil => cases f; simp [keyPermFields] at h
    | cons g gs =>
      cases f with
      | mk k v =>
        cases g with
        | mk l w =>
          rcases h with ⟨hkl, _, hrest⟩
          simp only [List.map_cons]
          rw [hkl, ih gs hrest]

theorem keyPermFields_canonFields : ∀ fs gs0 : List (String × Json),
    (∀ kv, kv ∈ fs → ∀ b, keyPerm kv.2 b → jsonNodupKeys kv.2 → canon kv.2 = canon b) →
    jsonNodupKeysFields fs → keyPermFields fs gs0 → canonFields fs = canonFields gs0 := by
  intro fs
  induction fs with
  | nil =>
    intro gs0 _ _ hfields
    cases gs0 with
    | nil => rfl
    | cons g gs' => simp [keyPermFields] at hfields
  | cons f fs ihl =>
    intro gs0 hIH hnd hfields
    cases gs0 with
    | nil => rcases f with ⟨k, v⟩; simp [keyPermFields] at hfields
    | cons g gs' =>
      rcases f with ⟨k, v⟩
      rcases g with ⟨l, w⟩
      rcases hfields with ⟨hkl, hvw, hrest⟩
      rcases hnd with ⟨hnv, hnfs⟩
      rw [canonFields, canonFields, hkl, hIH (k, v) (by simp) w hvw hnv,
        ihl gs' (fun z hz => hIH z (by simp [hz])) hnfs hrest]

theorem keyPerm_canon : ∀ a b : Json, keyPerm a b → jsonNodupKeys a → canon a = canon b := by
  intro a
  induction a using Json.strongInduction with
  | hnull =>
    intro b hk _
    cases b <;> simp [keyPerm] at hk
    rfl
  | hbool x =>
    intro b hk _
    cases b <;> simp [keyPerm] at hk
    rw [hk]
  | hnum x =>
    intro b hk _
    cases b <;> simp [keyPerm] at hk
    rw [hk]
  | hstr x =>
    intro b hk _
    cases b <;> simp [keyPerm] at hk
    rw [hk]
  | harr xs ih =>
    intro b hk hn
    cases b with
    | arr ys =>
      have hlist : canonList xs = canonList ys := by
        have hk' : keyPermList xs ys := hk
        have hn' : jsonNodupKeysList xs := hn
        clear hk hn
        induction xs generalizing ys with
        | nil =>
          cases ys with
          | nil => rfl
          | cons y ys => simp [keyPermList] at hk'
        | cons x xs ihl =>
          cases ys with
          | nil => simp [keyPermList] at hk'
          | cons y ys =>
            rcases hk' with ⟨hxy, hrest⟩
            rcases hn' with ⟨hnx, hnxs⟩
            rw [canonList, canonList, ih x (by simp) y hxy hnx,
              ihl (fun z hz => ih z (by simp [hz])) ys hrest hnxs]
      simp only [canon, hlist]
    | null => simp [keyPerm] at hk
    | bool y => simp [keyPerm] at hk
    | num y => simp [keyPerm] at hk
    | str y => simp [keyPerm] at hk
    | obj gs => simp [keyPerm] at hk
  | hobj fs ih =>
    intro b hk hn
    cases b with
    | obj gs =>
      rcases hk with ⟨gs0, hfields, hperm⟩
      rcases hn with ⟨hndk, hndv⟩
      have hcf : canonFields fs = canonFields gs0 :=
        keyPermFields_canonFields fs gs0 ih hndv hfields
      have hkeys0 : ((canonFields gs0).map Prod.fst).Nodup := by
        have h1 : (canonFields gs0).map Prod.fst = gs0.map Prod.fst := by
          rw [canonFields_eq_map]
          simp [Function.comp]
        rw [h1, ← keyPermFields_keys fs gs0 hfields]
        exact hndk
      have hpermc : (canonFields gs0).Perm (canonFields gs) := by
        rw [canonFields_eq_map, canonFields_eq_map]
        exact hperm.map _
      simp only [canon]
      rw [hcf, sortByKey_perm_congr (canonFields gs0) (canonFields gs) hpermc hkeys0]
    | null => simp [keyPerm] at hk
    | bool y => simp [keyPerm] at hk
    | num y => simp [keyPerm] at hk
    | str y => simp [keyPerm] at hk
    | arr ys => simp [keyPerm] at hk

/-- Claim C3: `compareJson` returns a non-empty ChangeSet exactly when the
canonical (stable, key-sorted) serializations of the two values differ; a
present result is never empty; `compareJson x x` is absent; and comparing a
value against any recursive permutation of its object key insertion order
(on objects without duplicate keys) is absent as well. -/
theorem c3_compareJson_canonical (a b : Json) :
    ((∃ cs, compareJson a b = some cs ∧ cs ≠ []) ↔
        stableStringify a ≠ stableStringify b) ∧
    (∀ cs, compareJson a b = some cs → cs ≠ []) ∧
    compareJson a a = none ∧
    (keyPerm a b → jsonNodupKeys a → compareJson a b = none) := by
  refine ⟨⟨?_, ?_⟩, ?_, ?_, ?_⟩
  · rintro ⟨cs, hsome, _⟩
    exact (compareJson_some_spec a b cs hsome).2.2
  · exact compareJson_nonempty_of_ne a b
  · intro cs hsome
    exact (compareJson_some_spec a b cs hsome).1
  · unfold compareJson
    rw [if_pos rfl]
  · intro hk hn
    have hss : stableStringify a = stableStringify b := by
      rw [← stableStringify_canon a, ← stableStringify_canon b, keyPerm_canon a b hk hn]
    unfold compareJson
    rw [if_pos hss]

theorem c3_compareJson_canonical_witness :
    compareJson (.obj [("a", .num "1"), ("b", .bool true)])
        (.obj [("b", .bool true), ("a", .num "1")]) = none ∧
      (∃ cs, compareJson (.obj [("a", .num "1")]) (.obj [("a", .num "2")]) = some cs ∧
        cs ≠ []) := by
  constructor
  · apply (c3_compareJson_canonical (.obj [("a", .num "1"), ("b", .bool true)])
      (.obj [("b", .bool true), ("a", .num "1")])).2.2.2
    · simp only [keyPerm]
      refine ⟨[("a", Json.num "1"), ("b", Json.bool true)], ?_, ?_⟩
      · simp [keyPermFields, keyPerm]
      · exact List.Perm.swap ("b", Json.bool true) ("a", Json.num "1") []
    · simp [jsonNodupKeys, jsonNodupKeysFields]
  · exact (c3_compareJson_canonical (.obj [("a", .num "1")])
      (.obj [("a", .num "2")])).1.mpr (by decide)

/-! ## Orchestrator (claims C1 and C2) -/

/-- Claim C1: at most one cycle executes at any instant.  Invoking
`checkJsonUpdates` while a cycle is `Running` returns immediately with no
collaborator call and leaves the guard untouched; a cycle that actually runs
resets the guard to `Idle` on every exit path (every collaborator outcome,
including fetch errors, storage errors and invalid payloads); and a
subsequent trigger after a finished cycle proceeds normally (its body starts
with the fetch call). -/
theorem c1_single_flight (env env2 : CycleEnv) :
    checkJsonUpdates true env = (true, []) ∧
    (checkJsonUpdates false env).1 = false ∧
    (checkJsonUpdates (checkJsonUpdates false env).1 env2).2.head? =
      some CollabCall.fetchCall := by
  exact ⟨rfl, rfl, rfl⟩

/-- Claim C2: in a cycle whose fetch succeeds with a valid object and whose
state read succeeds, `StateStore.write` is invoked exactly when no prior
snapshot exists or the comparer found a (non-empty) ChangeSet; every write
carries the freshly fetched state; the characterization holds for every AI
collaborator response, so the write is independent of the significance
verdict; and when the ChangeSet is absent, neither a write nor any
notification happens. -/
theorem c2_persistence_policy (env : CycleEnv) (j : Json) (r : Option Json)
    (hfetch : env.fetchResult = .ok j) (hvalid : isValidJsonObjectShape j = true)
    (hread : env.readResult = .ok r) :
    ((∃ s, CollabCall.writeStateCall s ∈ (checkJsonUpdates false env).2) ↔
      (r = none ∨ ∃ prev cs, r = some prev ∧ compareJson prev j = some cs)) ∧
    (∀ s, CollabCall.writeStateCall s ∈ (checkJsonUpdates false env).2 → s = j) ∧
    (∀ prev, r = some prev → compareJson prev j = none →
      (¬ ∃ s, CollabCall.writeStateCall s ∈ (checkJsonUpdates false env).2) ∧
      (¬ ∃ m, CollabCall.notifyCall m ∈ (checkJsonUpdates false env).2)) := by
  have htrace : (checkJsonUpdates false env).2 = checkJsonUpdatesBody env := rfl
  rw [htrace]
  unfold checkJsonUpdatesBody
  rw [hfetch]
  simp only [hvalid, if_true, hread]
  cases r with
  | none =>
    cases hw : env.writeResult with
    | ok u =>
      refine ⟨?_, ?_, ?_⟩
      · simp
      · intro s hs
        simp at hs
        exact hs
      · intro prev hprev
        cases hprev
    | error e =>
      refine ⟨?_, ?_, ?_⟩
      · simp
      · intro s hs
        simp [errorPathTrace] at hs
        exact hs
      · intro prev hprev
        cases hprev
  | some prev =>
    cases hc : compareJson prev j with
    | none =>
      simp only [hc, List.filter_nil, List.length_nil, gt_iff_lt, Nat.lt_irrefl, if_false]
      refine ⟨?_, ?_, ?_⟩
      · simp [hc]
      · intro s hs
        simp at hs
      · intro prev' hprev hcmp
        constructor
        · simp
        · simp
    | some cs =>
      rcases compareJson_some_spec prev j cs hc with ⟨hne, hfil, _⟩
      have hlen : 0 < (cs.filter fun c => c.added || c.removed).length := by
        rw [hfil]
        cases cs with
        | nil => exact absurd rfl hne
        | cons c cs' => simp
      simp only [hc, gt_iff_lt, hlen, if_true]
      refine ⟨?_, ?_, ?_⟩
      · constructor
        · intro _
          exact Or.inr ⟨prev, cs, rfl, hc⟩
        · intro _
          exact ⟨j, List.mem_cons.mpr (Or.inr (List.mem_cons.mpr (Or.inr
            (List.mem_cons.mpr (Or.inr (List.mem_append.mpr (Or.inr
              (List.mem_cons.mpr (Or.inl rfl)))))))))⟩
      · intro s hs
        rw [List.mem_cons] at hs
        rcases hs with h1 | h1
        · simp at h1
        rw [List.mem_cons] at h1
        rcases h1 with h1 | h1
        · simp at h1
        rw [List.mem_cons] at h1
        rcases h1 with h1 | h1
        · simp at h1
        rw [List.mem_append] at h1
        rcases h1 with h2 | h2
        · by_cases hia : (generateChangeSummary (cs.filter fun c => c.added || c.removed)
              env.aiResponse).1.isWorthToReport = true
          · rw [if_pos hia] at h2
            simp at h2
          · rw [if_neg hia] at h2
            simp at h2
        · rw [List.mem_cons] at h2
          rcases h2 with h3 | h3
          · injection h3
          · cases hw : env.writeResult with
            | ok u => rw [hw] at h3; simp at h3
            | error e => rw [hw] at h3; simp [errorPathTrace] at h3
      · intro prev' hprev hcmp
        have hpp : prev' = prev := by
          injection hprev with h
          exact h.symm
        rw [hpp, hc] at hcmp
        cases hcmp

/-! ## StateStore (claim C8): whitespace and token lemmas -/

theorem skipWs_append_ws : ∀ w l : List Char, (∀ c ∈ w, isJsonWs c = true) →
    skipWs (w ++ l) = skipWs l := by
  intro w
  induction w with
  | nil => intro l _; rfl
  | cons a w ih =>
    intro l hw
    show List.dropWhile isJsonWs (a :: (w ++ l)) = _
    rw [List.dropWhile_cons, if_pos (hw a (by simp))]
    exact ih l (fun c hc => hw c (by simp [hc]))

theorem skipWs_cons_not (c : Char) (l : List Char) (h : isJsonWs c = false) :
    skipWs (c :: l) = c :: l := by
  show List.dropWhile isJsonWs (c :: l) = _
  rw [List.dropWhile_cons, h]
  simp

theorem takeWhile_append_all {p : Char → Bool} : ∀ tok rest : List Char,
    (∀ c ∈ tok, p c = true) → (∀ c, rest.head? = some c → p c = false) →
    (tok ++ rest).takeWhile p = tok ∧ (tok ++ rest).dropWhile p = rest := by
  intro tok
  induction tok with
  | nil =>
    intro rest _ hrest
    cases rest with
    | nil => exact ⟨rfl, rfl⟩
    | cons r rs =>
      constructor
      · simp [List.takeWhile_cons, hrest r rfl]
      · simp [List.dropWhile_cons, hrest r rfl]
  | cons a tok ih =>
    intro rest htok hrest
    have ha : p a = true := htok a (by simp)
    have ih' := ih rest (fun c hc => htok c (by simp [hc])) hrest
    constructor
    · simp only [List.cons_append, List.takeWhile_cons, ha, if_true, ih'.1]
    · simp only [List.cons_append, List.dropWhile_cons, ha, if_true, ih'.2]

theorem hexVal_hexDigitChar : ∀ k, k < 16 → hexVal (hexDigitChar k) = some k := by decide

theorem escapeJsonString_cons (c : Char) (l : List Char) :
    escapeJsonString (c :: l) = escapeJsonChar c ++ escapeJsonString l := by
  simp [escapeJsonString]

theorem parseStringBody_escape : ∀ l rest : List Char,
    parseStringBody (escapeJsonString l ++ ('"' :: rest)) = some (l, rest) := by
  intro l
  induction l with
  | nil =>
    intro rest
    show parseStringBody ('"' :: rest) = _
    simp [parseStringBody]
  | cons c l ih =>
    intro rest
    rw [escapeJsonString_cons, List.append_assoc]
    by_cases h1 : c = '"'
    · subst h1
      show parseStringBody ('\\' :: '"' :: (escapeJsonString l ++ '"' :: rest)) = _
      have hstep : parseStringBody ('\\' :: '"' :: (escapeJsonString l ++ '"' :: rest)) =
          (parseStringBody (escapeJsonString l ++ '"' :: rest)).map
            fun p => ('"' :: p.1, p.2) := rfl
      rw [hstep, ih rest]
      rfl
    · by_cases h2 : c = '\\'
      · subst h2
        show parseStringBody ('\\' :: '\\' :: (escapeJsonString l ++ '"' :: rest)) = _
        have hstep : parseStringBody ('\\' :: '\\' :: (escapeJsonString l ++ '"' :: rest)) =
            (parseStringBody (escapeJsonString l ++ '"' :: rest)).map
              fun p => ('\\' :: p.1, p.2) := rfl
        rw [hstep, ih rest]
        rfl
      · by_cases h3 : c = '\x08'
        · subst h3
          show parseStringBody ('\\' :: 'b' :: (escapeJsonString l ++ '"' :: rest)) = _
          have hstep : parseStringBody ('\\' :: 'b' :: (escapeJsonString l ++ '"' :: rest)) =
              (parseStringBody (escapeJsonString l ++ '"' :: rest)).map
                fun p => ('\x08' :: p.1, p.2) := rfl
          rw [hstep, ih rest]
          rfl
        · by_cases h4 : c = '\t'
          · subst h4
            show parseStringBody ('\\' :: 't' :: (escapeJsonString l ++ '"' :: rest)) = _
            have hstep : parseStringBody ('\\' :: 't' :: (escapeJsonString l ++ '"' :: rest)) =
                (parseStringBody (escapeJsonString l ++ '"' :: rest)).map
                  fun p => ('\t' :: p.1, p.2) := rfl
            rw [hstep, ih rest]
            rfl
          · by_cases h5 : c = '\n'
            · subst h5
              show parseStringBody ('\\' :: 'n' :: (escapeJsonString l ++ '"' :: rest)) = _
              have hstep : parseStringBody ('\\' :: 'n' ::
                  (escapeJsonString l ++ '"' :: rest)) =
                  (parseStringBody (escapeJsonString l ++ '"' :: rest)).map
                    fun p => ('\n' :: p.1, p.2) := rfl
              rw [hstep, ih rest]
              rfl
            · by_cases h6 : c = '\x0c'
              · subst h6
                show parseStringBody ('\\' :: 'f' :: (escapeJsonString l ++ '"' :: rest)) = _
                have hstep : parseStringBody ('\\' :: 'f' ::
                    (escapeJsonString l ++ '"' :: rest)) =
                    (parseStringBody (escapeJsonString l ++ '"' :: rest)).map
                      fun p => ('\x0c' :: p.1, p.2) := rfl
                rw [hstep, ih rest]
                rfl
              · by_cases h7 : c = '\r'
                · subst h7
                  show parseStringBody ('\\' :: 'r' :: (escapeJsonString l ++ '"' :: rest)) = _
                  have hstep : parseStringBody ('\\' :: 'r' ::
                      (escapeJsonString l ++ '"' :: rest)) =
                      (parseStringBody (escapeJsonString l ++ '"' :: rest)).map
                        fun p => ('\r' :: p.1, p.2) := rfl
                  rw [hstep, ih rest]
                  rfl
                · by_cases h8 : c.toNat < 32
                  · have hesc : escapeJsonChar c =
                        ['\\', 'u', '0', '0', hexDigitChar (c.toNat / 16),
                          hexDigitChar (c.toNat % 16)] := by
                      rw [escapeJsonChar, if_neg h1, if_neg h2, if_neg h3, if_neg h4,
                        if_neg h5, if_neg h6, if_neg h7, if_pos h8]
                    rw [hesc]
                    have hstep : parseStringBody ('\\' :: 'u' :: '0' :: '0' ::
                        hexDigitChar (c.toNat / 16) :: hexDigitChar (c.toNat % 16) ::
                          (escapeJsonString l ++ '"' :: rest)) =
                        match hexVal '0', hexVal '0', hexVal (hexDigitChar (c.toNat / 16)),
                            hexVal (hexDigitChar (c.toNat % 16)) with
                        | some a, some b, some c1, some d =>
                          (parseStringBody (escapeJsonString l ++ '"' :: rest)).map fun p =>
                            (Char.ofNat (((a * 16 + b) * 16 + c1) * 16 + d) :: p.1, p.2)
                        | _, _, _, _ => none := rfl
                    simp only [List.cons_append, List.nil_append]
                    rw [hstep]
                    rw [show hexVal '0' = some 0 from rfl,
                      hexVal_hexDigitChar (c.toNat / 16) (by omega),
                      hexVal_hexDigitChar (c.toNat % 16) (by omega)]
                    simp only [ih rest, Option.map_some]
                    have harith : ((0 * 16 + 0) * 16 + c.toNat / 16) * 16 + c.toNat % 16
                        = c.toNat := by omega
                    rw [harith, Char.ofNat_toNat]
                    rfl
                  · have hesc : escapeJsonChar c = [c] := by
                      rw [escapeJsonChar, if_neg h1, if_neg h2, if_neg h3, if_neg h4,
                        if_neg h5, if_neg h6, if_neg h7, if_neg h8]
                    rw [hesc]
                    have hstep : parseStringBody (c :: (escapeJsonString l ++ '"' :: rest)) =
                        if c = '"' then some ([], escapeJsonString l ++ '"' :: rest)
                        else if c = '\\' then parseEscape (escapeJsonString l ++ '"' :: rest)
                        else (parseStringBody (escapeJsonString l ++ '"' :: rest)).map
                          fun p => (c :: p.1, p.2) := rfl
                    simp only [List.cons_append, List.nil_append]
                    rw [hstep, if_neg h1, if_neg h2, ih rest]
                    rfl

theorem chompInt_cons (c : Char) (r : List Char) :
    chompInt (c :: r) =
      if c = '0' then some r
      else if isDigitChar c then some (r.dropWhile isDigitChar) else none := rfl

theorem chompFrac_cons (c : Char) (r : List Char) :
    chompFrac (c :: r) =
      if c = '.' then
        (match r with
         | c2 :: r2 => if isDigitChar c2 then some (r2.dropWhile isDigitChar) else none
         | [] => none)
      else some (c :: r) := rfl

theorem chompExp_cons (c : Char) (r : List Char) :
    chompExp (c :: r) =
      if c = 'e' || c = 'E' then
        (match (match r with
                | s :: r2 => if s = '+' || s = '-' then r2 else r
                | [] => []) with
         | d :: r3 => if isDigitChar d then some (r3.dropWhile isDigitChar) else none
         | [] => none)
      else some (c :: r) := rfl

theorem chompInt_parts : ∀ l l', chompInt l = some l' →
    ∃ pre, l = pre ++ l' ∧ pre ≠ [] ∧ ∀ c ∈ pre, isNumChar c = true := by
  intro l l' h
  cases l with
  | nil => cases h
  | cons c r =>
    rw [chompInt_cons] at h
    by_cases h0 : c = '0'
    · rw [if_pos h0] at h
      injection h with h
      exact ⟨[c], by simp [h], by simp, by simp [h0, isNumChar, isDigitChar]⟩
    · rw [if_neg h0] at h
      by_cases hd : isDigitChar c = true
      · rw [if_pos hd] at h
        injection h with h
        refine ⟨c :: r.takeWhile isDigitChar, ?_, by simp, ?_⟩
        · rw [← h]
          simp [List.takeWhile_append_dropWhile]
        · intro x hx
          rcases List.mem_cons.mp hx with rfl | hx'
          · simp [isNumChar, hd]
          · have := List.mem_takeWhile_imp hx'
            simp [isNumChar, this]
      · rw [if_neg hd] at h
        cases h

theorem chompFrac_parts : ∀ l l', chompFrac l = some l' →
    ∃ pre, l = pre ++ l' ∧ ∀ c ∈ pre, isNumChar c = true := by
  intro l l' h
  cases l with
  | nil =>
    have h' : (some [] : Option (List Char)) = some l' := h
    injection h' with h''
    exact ⟨[], by simp [← h''], by simp⟩
  | cons c r =>
    rw [chompFrac_cons] at h
    by_cases hdot : c = '.'
    · rw [if_pos hdot] at h
      cases r with
      | nil => cases h
      | cons c2 r2 =>
        simp only [] at h
        by_cases hd : isDigitChar c2 = true
        · rw [if_pos hd] at h
          injection h with h
          refine ⟨c :: c2 :: r2.takeWhile isDigitChar, ?_, ?_⟩
          · rw [← h]
            simp [List.takeWhile_append_dropWhile]
          · intro x hx
            rcases List.mem_cons.mp hx with rfl | hx'
            · simp [hdot, isNumChar]
            · rcases List.mem_cons.mp hx' with rfl | hx''
              · simp [isNumChar, hd]
              · have := List.mem_takeWhile_imp hx''
                simp [isNumChar, this]
        · rw [if_neg hd] at h
          cases h
    · rw [if_neg hdot] at h
      injection h with h
      exact ⟨[], by simp [h], by simp⟩

theorem chompExp_parts : ∀ l l', chompExp l = some l' →
    ∃ pre, l = pre ++ l' ∧ ∀ c ∈ pre, isNumChar c = true := by
  intro l l' h
  cases l with
  | nil =>
    have h' : (some [] : Option (List Char)) = some l' := h
    injection h' with h''
    exact ⟨[], by simp [← h''], by simp⟩
  | cons c r =>
    rw [chompExp_cons] at h
    by_cases he : (c = 'e' || c = 'E') = true
    · rw [if_pos he] at h
      have hce : isNumChar c = true := by
        have : c = 'e' ∨ c = 'E' := by
          rcases Bool.or_eq_true .. |>.mp he with hh | hh
          · exact Or.inl (by simpa using hh)
          · exact Or.inr (by simpa using hh)
        rcases this with rfl | rfl <;> decide
      cases r with
      | nil =>
        simp only [] at h
        cases h
      | cons s r2 =>
        simp only [] at h
        by_cases hsign : (s = '+' || s = '-') = true
        · rw [if_pos hsign] at h
          cases r2 with
          | nil => cases h
          | cons d r3 =>
            simp only [] at h
            by_cases hd : isDigitChar d = true
            · rw [if_pos hd] at h
              injection h with h
              refine ⟨c :: s :: d :: r3.takeWhile isDigitChar, ?_, ?_⟩
              · rw [← h]
                simp [List.takeWhile_append_dropWhile]
              · intro x hx
                rcases List.mem_cons.mp hx with rfl | hx1
                · exact hce
                rcases List.mem_cons.mp hx1 with rfl | hx2
                · have : x = '+' ∨ x = '-' := by
                    rcases Bool.or_eq_true .. |>.mp hsign with hh | hh
                    · exact Or.inl (by simpa using hh)
                    · exact Or.inr (by simpa using hh)
                  rcases this with rfl | rfl <;> decide
                rcases List.mem_cons.mp hx2 with rfl | hx3
                · simp [isNumChar, hd]
                · have := List.mem_takeWhile_imp hx3
                  simp [isNumChar, this]
            · rw [if_neg hd] at h
              cases h
        · rw [if_neg hsign] at h
          simp only [] at h
          by_cases hd : isDigitChar s = true
          · rw [if_pos hd] at h
            injection h with h
            refine ⟨c :: s :: r2.takeWhile isDigitChar, ?_, ?_⟩
            · rw [← h]
              simp [List.takeWhile_append_dropWhile]
            · intro x hx
              rcases List.mem_cons.mp hx with rfl | hx1
              · exact hce
              rcases List.mem_cons.mp hx1 with rfl | hx2
              · simp [isNumChar, hd]
              · have := List.mem_takeWhile_imp hx2
                simp [isNumChar, this]
          · rw [if_neg hd] at h
            cases h
    · rw [if_neg he] at h
      injection h with h
      exact ⟨[], by simp [h], by simp⟩

theorem numValid_eq (l : List Char) :
    numValid l = true ↔
      ∃ l2 l3, chompInt (if l.head? = some '-' then l.tail else l) = some l2 ∧
        chompFrac l2 = some l3 ∧ chompExp l3 = some [] := by
  unfold numValid
  cases hInt : chompInt (if l.head? = some '-' then l.tail else l) with
  | none => simp
  | some l2 =>
    simp only [Option.some.injEq]
    cases hFrac : chompFrac l2 with
    | none => simp [hFrac]
    | some l3 =>
      simp only [hFrac]
      cases hExp : chompExp l3 with
      | none => simp [hFrac, hExp]
      | some l4 =>
        constructor
        · intro hemp
          have : l4 = [] := by
            cases l4 with
            | nil => rfl
            | cons a b => simp [List.isEmpty] at hemp
          exact ⟨l2, l3, rfl, hFrac, by rw [hExp, this]⟩
        · rintro ⟨l2', l3', h2, h3, h4⟩
          have hl2 : l2' = l2 := h2.symm
          subst hl2
          rw [hFrac] at h3
          have hl3 : l3' = l3 := by injection h3 with hh; exact hh.symm
          subst hl3
          rw [hExp] at h4
          have : l4 = [] := by injection h4 with hh
          simp [this]

theorem numValid_all : ∀ l : List Char, numValid l = true → ∀ c ∈ l, isNumChar c = true := by
  intro l h
  rcases (numValid_eq l).mp h with ⟨l2, l3, hInt, hFrac, hExp⟩
  rcases chompFrac_parts l2 l3 hFrac with ⟨p2, hl2, hp2⟩
  rcases chompExp_parts l3 [] hExp with ⟨p3, hl3, hp3⟩
  by_cases hminus : l.head? = some '-'
  · rw [if_pos hminus] at hInt
    cases l with
    | nil => cases hminus
    | cons c0 r =>
      have hc0 : c0 = '-' := by
        rw [List.head?_cons] at hminus
        injection hminus with hh
      simp only [List.tail_cons] at hInt
      rcases chompInt_parts r l2 hInt with ⟨p1, hr, _, hp1⟩
      intro c hc
      rcases List.mem_cons.mp hc with rfl | hcr
      · rw [hc0]; decide
      · rw [hr, hl2, hl3] at hcr
        simp only [List.append_nil, List.mem_append] at hcr
        rcases hcr with h' | h' | h'
        · exact hp1 c h'
        · exact hp2 c h'
        · exact hp3 c h'
  · rw [if_neg hminus] at hInt
    rcases chompInt_parts l l2 hInt with ⟨p1, hr, _, hp1⟩
    intro c hc
    rw [hr, hl2, hl3] at hc
    simp only [List.append_nil, List.mem_append] at hc
    rcases hc with h' | h' | h'
    · exact hp1 c h'
    · exact hp2 c h'
    · exact hp3 c h'

theorem numValid_head : ∀ l : List Char, numValid l = true →
    ∃ c r, l = c :: r ∧ (c = '-' ∨ isDigitChar c = true) := by
  intro l h
  rcases (numValid_eq l).mp h with ⟨l2, l3, hInt, _, _⟩
  by_cases hminus : l.head? = some '-'
  · cases l with
    | nil => cases hminus
    | cons c0 r =>
      refine ⟨c0, r, rfl, Or.inl ?_⟩
      rw [List.head?_cons] at hminus
      injection hminus with hh
  · rw [if_neg hminus] at hInt
    cases l with
    | nil => cases hInt
    | cons c r =>
      refine ⟨c, r, rfl, Or.inr ?_⟩
      rw [chompInt_cons] at hInt
      by_cases h0 : c = '0'
      · rw [h0]; decide
      · rw [if_neg h0] at hInt
        by_cases hd : isDigitChar c = true
        · exact hd
        · rw [if_neg hd] at hInt
          cases hInt

theorem numHead_facts (c : Char) (h : c = '-' ∨ isDigitChar c = true) :
    isJsonWs c = false ∧ c ≠ 'n' ∧ c ≠ 't' ∧ c ≠ 'f' ∧ c ≠ '"' ∧ c ≠ '[' ∧
      c ≠ '\x7b' ∧ c ≠ ']' ∧ c ≠ '\x7d' ∧ c ≠ ',' ∧ isNumChar c = true := by
  rcases h with rfl | hd
  · exact ⟨rfl, by decide, by decide, by decide, by decide, by decide, by decide,
      by decide, by decide, by decide, by decide⟩
  · have hb : 48 ≤ c.toNat ∧ c.toNat ≤ 57 := by
      simpa [isDigitChar, Bool.and_eq_true, decide_eq_true_iff] using hd
    have hne : ∀ d : Char, c.toNat ≠ d.toNat → c ≠ d := by
      intro d hnd he
      exact hnd (by rw [he])
    refine ⟨?_, ?_, ?_, ?_, ?_, ?_, ?_, ?_, ?_, ?_, by simp [isNumChar, hd]⟩
    · have h32 : c ≠ ' ' := hne ' ' (show c.toNat ≠ 32 by omega)
      have h10 : c ≠ '\n' := hne '\n' (show c.toNat ≠ 10 by omega)
      have h9 : c ≠ '\t' := hne '\t' (show c.toNat ≠ 9 by omega)
      have h13 : c ≠ '\r' := hne '\r' (show c.toNat ≠ 13 by omega)
      simp [isJsonWs, h32, h10, h9, h13]
    · exact hne 'n' (show c.toNat ≠ 110 by omega)
    · exact hne 't' (show c.toNat ≠ 116 by omega)
    · exact hne 'f' (show c.toNat ≠ 102 by omega)
    · exact hne '"' (show c.toNat ≠ 34 by omega)
    · exact hne '[' (show c.toNat ≠ 91 by omega)
    · exact hne '\x7b' (show c.toNat ≠ 123 by omega)
    · exact hne ']' (show c.toNat ≠ 93 by omega)
    · exact hne '\x7d' (show c.toNat ≠ 125 by omega)
    · exact hne ',' (show c.toNat ≠ 44 by omega)

theorem c2_persistence_policy_witness :
    ∃ s, CollabCall.writeStateCall s ∈ (checkJsonUpdates false
      ⟨.ok (.obj [("a", .num "2")]), .ok (some (.obj [("a", .num "1")])),
       .ok (.obj [("isWorthToReport", .bool false), ("reportedChanges", .str "minor")]),
       .ok ()⟩).2 :=
  ((c2_persistence_policy
      ⟨.ok (.obj [("a", .num "2")]), .ok (some (.obj [("a", .num "1")])),
       .ok (.obj [("isWorthToReport", .bool false), ("reportedChanges", .str "minor")]),
       .ok ()⟩
      (.obj [("a", .num "2")]) (some (.obj [("a", .num "1")]))
      rfl (by decide) rfl).1).mpr
    (Or.inr ⟨.obj [("a", .num "1")], [⟨"1", false, true⟩, ⟨"2", true, false⟩], rfl, by decide⟩)

/-! ## StateStore round-trip (C8) -/

theorem parseValue_succ_eq (fuel : Nat) (input : List Char) :
    parseValue (fuel + 1) input =
      match skipWs input with
      | [] => none
      | c :: rest =>
        if c = 'n' then
          (match rest with
           | 'u' :: 'l' :: 'l' :: r => some (.null, r)
           | _ => none)
        else if c = 't' then
          (match rest with
           | 'r' :: 'u' :: 'e' :: r => some (.bool true, r)
           | _ => none)
        else if c = 'f' then
          (match rest with
           | 'a' :: 'l' :: 's' :: 'e' :: r => some (.bool false, r)
           | _ => none)
        else if c = '"' then (parseStringBody rest).map fun p => (.str ⟨p.1⟩, p.2)
        else if c = '[' then
          (if (skipWs rest).head? = some ']' then some (.arr [], (skipWs rest).tail)
           else (parseElems fuel rest).map fun p => (.arr p.1, p.2))
        else if c = '\x7b' then
          (if (skipWs rest).head? = some '\x7d' then some (.obj [], (skipWs rest).tail)
           else (parseMembers fuel rest).map fun p => (.obj p.1, p.2))
        else if isNumChar c then
          (let tok := (c :: rest).takeWhile isNumChar
           if numValid tok then some (.num ⟨tok⟩, (c :: rest).dropWhile isNumChar) else none)
        else none := rfl

theorem parseValue_step (fuel : Nat) (input : List Char) (c : Char) (r : List Char)
    (h : skipWs input = c :: r) :
    parseValue (fuel + 1) input =
      (if c = 'n' then
        (match r with
         | 'u' :: 'l' :: 'l' :: r2 => some (.null, r2)
         | _ => none)
      else if c = 't' then
        (match r with
         | 'r' :: 'u' :: 'e' :: r2 => some (.bool true, r2)
         | _ => none)
      else if c = 'f' then
        (match r with
         | 'a' :: 'l' :: 's' :: 'e' :: r2 => some (.bool false, r2)
         | _ => none)
      else if c = '"' then (parseStringBody r).map fun p => (.str ⟨p.1⟩, p.2)
      else if c = '[' then
        (if (skipWs r).head? = some ']' then some (.arr [], (skipWs r).tail)
         else (parseElems fuel r).map fun p => (.arr p.1, p.2))
      else if c = '\x7b' then
        (if (skipWs r).head? = some '\x7d' then some (.obj [], (skipWs r).tail)
         else (parseMembers fuel r).map fun p => (.obj p.1, p.2))
      else if isNumChar c then
        (if numValid ((c :: r).takeWhile isNumChar) then
          some (.num ⟨(c :: r).takeWhile isNumChar⟩, (c :: r).dropWhile isNumChar) else none)
      else none) := by
  rw [parseValue_succ_eq, h]

theorem parseElems_succ_eq (fuel : Nat) (input : List Char) :
    parseElems (fuel + 1) input =
      match parseValue fuel input with
      | none => none
      | some (x, r) =>
        match skipWs r with
        | ',' :: r2 => (parseElems fuel r2).map fun p => (x :: p.1, p.2)
        | ']' :: r2 => some ([x], r2)
        | _ => none := rfl

theorem parseElems_step (fuel : Nat) (input : List Char) (x : Json) (r : List Char)
    (h : parseValue fuel input = some (x, r)) :
    parseElems (fuel + 1) input =
      (match skipWs r with
       | ',' :: r2 => (parseElems fuel r2).map fun p => (x :: p.1, p.2)
       | ']' :: r2 => some ([x], r2)
       | _ => none) := by
  rw [parseElems_succ_eq, h]

theorem parseMembers_succ_eq (fuel : Nat) (input : List Char) :
    parseMembers (fuel + 1) input =
      match skipWs input with
      | '"' :: r =>
        (match parseStringBody r with
         | none => none
         | some (k, r1) =>
           match skipWs r1 with
           | ':' :: r2 =>
             (match parseValue fuel r2 with
              | none => none
              | some (v, r3) =>
                match skipWs r3 with
                | ',' :: r4 => (parseMembers fuel r4).map fun p => ((⟨k⟩, v) :: p.1, p.2)
                | '\x7d' :: r4 => some ([(⟨k⟩, v)], r4)
                | _ => none)
           | _ => none)
      | _ => none := rfl

theorem parseMembers_chain (fuel : Nat) (input : List Char) (k : String) (r2 r3 : List Char)
    (v : Json) (h1 : skipWs input = '"' :: (escapeJsonString k.data ++ ('"' :: (':' :: r2))))
    (h2 : parseValue fuel r2 = some (v, r3)) :
    parseMembers (fuel + 1) input =
      (match skipWs r3 with
       | ',' :: r4 => (parseMembers fuel r4).map fun p => ((k, v) :: p.1, p.2)
       | '\x7d' :: r4 => some ([(k, v)], r4)
       | _ => none) := by
  rw [parseMembers_succ_eq, h1]
  simp only [parseStringBody_escape]
  rw [skipWs_cons_not _ _ (by decide)]
  simp only [h2]

theorem ws_not_num (c : Char) (h : isJsonWs c = true) : isNumChar c = false := by
  have : ((c = ' ' ∨ c = '\n') ∨ c = '\t') ∨ c = '\r' := by
    simpa [isJsonWs, Bool.or_eq_true, decide_eq_true_eq] using h
  rcases this with ((rfl | rfl) | rfl) | rfl <;> decide

theorem head_not_num_append (w2 : List Char) (b : Char) (rest : List Char)
    (hw : ∀ c ∈ w2, isJsonWs c = true) (hb : isNumChar b = false) :
    ∀ c, (w2 ++ b :: rest).head? = some c → isNumChar c = false := by
  intro c hc
  cases w2 with
  | nil =>
    rw [List.nil_append, List.head?_cons] at hc
    injection hc with hh
    rw [← hh]
    exact hb
  | cons a t =>
    rw [List.cons_append, List.head?_cons] at hc
    injection hc with hh
    rw [← hh]
    exact ws_not_num a (hw a (by simp))

theorem head_not_num_cons (b : Char) (rest : List Char) (hb : isNumChar b = false) :
    ∀ c, (b :: rest).head? = some c → isNumChar c = false := by
  intro c hc
  rw [List.head?_cons] at hc
  injection hc with hh
  rw [← hh]
  exact hb

theorem skipWs_cons_ws (c : Char) (l : List Char) (h : isJsonWs c = true) :
    skipWs (c :: l) = skipWs l := by
  show List.dropWhile isJsonWs (c :: l) = _
  rw [List.dropWhile_cons, if_pos h]
  rfl

theorem ws_ind_two (ind : String) (h : ∀ c ∈ ind.data, isJsonWs c = true) :
    ∀ c ∈ (ind ++ "  ").data, isJsonWs c = true := by
  intro c hc
  rw [String.data_append] at hc
  rcases List.mem_append.mp hc with h1 | h2
  · exact h c h1
  · rw [show ("  ").data = [' ', ' '] from rfl] at h2
    rcases List.mem_cons.mp h2 with rfl | h3
    · rfl
    · rcases List.mem_cons.mp h3 with rfl | h4
      · rfl
      · cases h4

theorem ws_append (w1 w2 : List Char) (h1 : ∀ c ∈ w1, isJsonWs c = true)
    (h2 : ∀ c ∈ w2, isJsonWs c = true) : ∀ c ∈ w1 ++ w2, isJsonWs c = true := by
  intro c hc
  rcases List.mem_append.mp hc with h | h
  · exact h1 c h
  · exact h2 c h

theorem ws_cons (a : Char) (w : List Char) (ha : isJsonWs a = true)
    (h : ∀ c ∈ w, isJsonWs c = true) : ∀ c ∈ a :: w, isJsonWs c = true := by
  intro c hc
  rcases List.mem_cons.mp hc with rfl | h'
  · exact ha
  · exact h c h'

theorem prettyJson_head (ind : String) (j : Json) (hwf : wfJson j = true) :
    ∃ c t, (prettyJson ind j).data = c :: t ∧ isJsonWs c = false ∧ c ≠ ']' ∧ c ≠ '\x7d' := by
  cases j with
  | null => exact ⟨'n', ['u', 'l', 'l'], rfl, by decide, by decide, by decide⟩
  | bool b =>
    cases b with
    | true => exact ⟨'t', ['r', 'u', 'e'], rfl, by decide, by decide, by decide⟩
    | false => exact ⟨'f', ['a', 'l', 's', 'e'], rfl, by decide, by decide, by decide⟩
  | num t =>
    have hnv : numValid t.data = true := hwf
    obtain ⟨c, r, hdt, hcase⟩ := numValid_head t.data hnv
    obtain ⟨hws, _, _, _, _, _, _, hrb, hrc, _, _⟩ := numHead_facts c hcase
    exact ⟨c, r, hdt, hws, hrb, hrc⟩
  | str s => exact ⟨'"', escapeJsonString s.data ++ ['"'], rfl, by decide, by decide, by decide⟩
  | arr xs =>
    cases xs with
    | nil => exact ⟨'[', [']'], rfl, by decide, by decide, by decide⟩
    | cons x xs =>
      refine ⟨'[', '\n' :: ((prettyElems (ind ++ "  ") (x :: xs)).data ++
        ('\n' :: (ind.data ++ [']']))), ?_, by decide, by decide, by decide⟩
      show ("[\n" ++ prettyElems (ind ++ "  ") (x :: xs) ++ "\n" ++ ind ++ "]").data = _
      simp only [String.data_append]
      simp only [List.append_assoc, List.cons_append, List.nil_append]
  | obj fs =>
    cases fs with
    | nil => exact ⟨'\x7b', ['\x7d'], rfl, by decide, by decide, by decide⟩
    | cons f fs =>
      refine ⟨'\x7b', '\n' :: ((prettyMembers (ind ++ "  ") (f :: fs)).data ++
        ('\n' :: (ind.data ++ ['\x7d']))), ?_, by decide, by decide, by decide⟩
      show ("\x7b\n" ++ prettyMembers (ind ++ "  ") (f :: fs) ++ "\n" ++ ind ++ "\x7d").data = _
      simp only [String.data_append]
      simp only [List.append_assoc, List.cons_append, List.nil_append]

theorem prettyElems_decomp (ind : String) (x : Json) (xs : List Json) :
    ∃ S, (prettyElems ind (x :: xs)).data = ind.data ++ ((prettyJson ind x).data ++ S) := by
  cases xs with
  | nil =>
    refine ⟨[], ?_⟩
    show (ind ++ prettyJson ind x).data = _
    rw [String.data_append, List.append_nil]
  | cons y ys =>
    refine ⟨',' :: '\n' :: (prettyElems ind (y :: ys)).data, ?_⟩
    show (ind ++ prettyJson ind x ++ ",\n" ++ prettyElems ind (y :: ys)).data = _
    simp only [String.data_append]
    simp only [List.append_assoc, List.cons_append, List.nil_append]

theorem prettyMembers_decomp (ind : String) (f : String × Json) (fs : List (String × Json)) :
    ∃ S, (prettyMembers ind (f :: fs)).data = ind.data ++ ('"' :: S) := by
  cases fs with
  | nil =>
    refine ⟨escapeJsonString f.1.data ++ ('"' :: (':' :: ' ' :: (prettyJson ind f.2).data)), ?_⟩
    show (ind ++ quoteJsonString f.1 ++ ": " ++ prettyJson ind f.2).data = _
    simp only [String.data_append]
    rw [show (quoteJsonString f.1).data = '"' :: (escapeJsonString f.1.data ++ ['"']) from rfl]
    simp only [List.append_assoc, List.cons_append, List.nil_append]
  | cons g gs =>
    refine ⟨escapeJsonString f.1.data ++ ('"' :: (':' :: ' ' :: ((prettyJson ind f.2).data ++
      (',' :: '\n' :: (prettyMembers ind (g :: gs)).data)))), ?_⟩
    show (ind ++ quoteJsonString f.1 ++ ": " ++ prettyJson ind f.2 ++ ",\n" ++
      prettyMembers ind (g :: gs)).data = _
    simp only [String.data_append]
    rw [show (quoteJsonString f.1).data = '"' :: (escapeJsonString f.1.data ++ ['"']) from rfl]
    simp only [List.append_assoc, List.cons_append, List.nil_append]

theorem needFuel_pos : ∀ j : Json, 1 ≤ needFuel j := by
  intro j
  cases j with
  | null => exact le_refl 1
  | bool b => exact le_refl 1
  | num t => exact le_refl 1
  | str s => exact le_refl 1
  | arr xs => show 1 ≤ 1 + needFuelElems xs; omega
  | obj fs => show 1 ≤ 1 + needFuelMembers fs; omega

theorem needFuelElems_le (ind : String) (hind1 : 1 ≤ ind.data.length) : ∀ xs : List Json,
    (∀ x ∈ xs, ∀ ind2 : String, needFuel x ≤ (prettyJson ind2 x).data.length + 1) →
    needFuelElems xs ≤ (prettyElems ind xs).data.length + 1 := by
  intro xs
  induction xs with
  | nil => intro _; exact Nat.zero_le _
  | cons x xs ih =>
    intro h
    cases xs with
    | nil =>
      have hx := h x (by simp) ind
      show 1 + needFuel x + 0 ≤ (ind ++ prettyJson ind x).data.length + 1
      rw [String.data_append, List.length_append]
      omega
    | cons y ys =>
      have hx := h x (by simp) ind
      have hy := ih (fun z hz ind2 => h z (by simp [hz]) ind2)
      show 1 + needFuel x + needFuelElems (y :: ys) ≤
        (ind ++ prettyJson ind x ++ ",\n" ++ prettyElems ind (y :: ys)).data.length + 1
      simp only [String.data_append, List.length_append, List.length_cons, List.length_nil]
      omega

theorem needFuelMembers_le (ind : String) (hind1 : 1 ≤ ind.data.length) :
    ∀ fs : List (String × Json),
    (∀ g ∈ fs, ∀ ind2 : String, needFuel g.2 ≤ (prettyJson ind2 g.2).data.length + 1) →
    needFuelMembers fs ≤ (prettyMembers ind fs).data.length + 1 := by
  intro fs
  induction fs with
  | nil => intro _; exact Nat.zero_le _
  | cons f fs ih =>
    intro h
    obtain ⟨k, v⟩ := f
    have hv : needFuel v ≤ (prettyJson ind v).data.length + 1 := h (k, v) (by simp) ind
    cases fs with
    | nil =>
      show 1 + needFuel v + 0 ≤ (ind ++ quoteJsonString k ++ ": " ++ prettyJson ind v).data.length + 1
      simp only [String.data_append, List.length_append, List.length_cons, List.length_nil]
      omega
    | cons g gs =>
      have hg := ih (fun z hz ind2 => h z (by simp [hz]) ind2)
      show 1 + needFuel v + needFuelMembers (g :: gs) ≤
        (ind ++ quoteJsonString k ++ ": " ++ prettyJson ind v ++ ",\n" ++
          prettyMembers ind (g :: gs)).data.length + 1
      simp only [String.data_append, List.length_append, List.length_cons, List.length_nil]
      omega

theorem needFuel_le_len : ∀ (j : Json) (ind : String),
    needFuel j ≤ (prettyJson ind j).data.length + 1 := by
  intro j
  induction j using Json.strongInduction with
  | hnull => intro ind; show (1 : Nat) ≤ ("null").data.length + 1; omega
  | hbool b =>
    intro ind
    cases b with
    | false => show (1 : Nat) ≤ ("false").data.length + 1; omega
    | true => show (1 : Nat) ≤ ("true").data.length + 1; omega
  | hnum t => intro ind; show (1 : Nat) ≤ t.data.length + 1; omega
  | hstr s => intro ind; show (1 : Nat) ≤ (quoteJsonString s).data.length + 1; omega
  | harr xs ih =>
    intro ind
    cases xs with
    | nil => show (1 : Nat) + 0 ≤ ("[]").data.length + 1; decide
    | cons x xs =>
      have h1 : 1 ≤ (ind ++ "  ").data.length := by
        rw [String.data_append, List.length_append]
        have : ("  ").data.length = 2 := rfl
        omega
      have hE := needFuelElems_le (ind ++ "  ") h1 (x :: xs) (fun z hz ind2 => ih z hz ind2)
      show 1 + needFuelElems (x :: xs) ≤
        ("[\n" ++ prettyElems (ind ++ "  ") (x :: xs) ++ "\n" ++ ind ++ "]").data.length + 1
      simp only [String.data_append, List.length_append, List.length_cons, List.length_nil]
      simp only [List.length_cons, List.length_nil] at hE
      omega
  | hobj fs ih =>
    intro ind
    cases fs with
    | nil => show (1 : Nat) + 0 ≤ ("\x7b\x7d").data.length + 1; decide
    | cons f fs =>
      have h1 : 1 ≤ (ind ++ "  ").data.length := by
        rw [String.data_append, List.length_append]
        have : ("  ").data.length = 2 := rfl
        omega
      have hM := needFuelMembers_le (ind ++ "  ") h1 (f :: fs) (fun z hz ind2 => ih z hz ind2)
      show 1 + needFuelMembers (f :: fs) ≤
        ("\x7b\n" ++ prettyMembers (ind ++ "  ") (f :: fs) ++ "\n" ++ ind ++ "\x7d").data.length + 1
      simp only [String.data_append, List.length_append, List.length_cons, List.length_nil]
      simp only [List.length_cons, List.length_nil] at hM
      omega

theorem parse_pretty_all : ∀ fuel : Nat,
    (∀ j : Json, wfJson j = true → needFuel j ≤ fuel →
      ∀ (ind : String) (pre rest : List Char),
        (∀ c ∈ ind.data, isJsonWs c = true) → (∀ c ∈ pre, isJsonWs c = true) →
        (∀ c, rest.head? = some c → isNumChar c = false) →
        parseValue fuel (pre ++ ((prettyJson ind j).data ++ rest)) = some (j, rest)) ∧
    (∀ xs : List Json, xs ≠ [] → wfJsonList xs = true → needFuelElems xs ≤ fuel →
      ∀ (ind : String) (pre w2 rest : List Char),
        (∀ c ∈ ind.data, isJsonWs c = true) → (∀ c ∈ pre, isJsonWs c = true) →
        (∀ c ∈ w2, isJsonWs c = true) →
        parseElems fuel (pre ++ ((prettyElems ind xs).data ++ (w2 ++ (']' :: rest)))) =
          some (xs, rest)) ∧
    (∀ fs : List (String × Json), fs ≠ [] → wfJsonFields fs = true → needFuelMembers fs ≤ fuel →
      ∀ (ind : String) (pre w2 rest : List Char),
        (∀ c ∈ ind.data, isJsonWs c = true) → (∀ c ∈ pre, isJsonWs c = true) →
        (∀ c ∈ w2, isJsonWs c = true) →
        parseMembers fuel (pre ++ ((prettyMembers ind fs).data ++ (w2 ++ ('\x7d' :: rest)))) =
          some (fs, rest)) := by
  intro fuel
  induction fuel with
  | zero =>
    refine ⟨?_, ?_, ?_⟩
    · intro j _ hfl
      exact absurd hfl (by have := needFuel_pos j; omega)
    · intro xs hne _ hfl
      cases xs with
      | nil => exact absurd rfl hne
      | cons x t =>
        exact absurd hfl (show ¬ (1 + needFuel x + needFuelElems t ≤ 0) by omega)
    · intro fs hne _ hfl
      cases fs with
      | nil => exact absurd rfl hne
      | cons f t =>
        obtain ⟨k, v⟩ := f
        exact absurd hfl (show ¬ (1 + needFuel v + needFuelMembers t ≤ 0) by omega)
  | succ fuel ih =>
    obtain ⟨ihV, ihE, ihM⟩ := ih
    refine ⟨?_, ?_, ?_⟩
    · -- parseValue
      intro j hwf hfl ind pre rest hind hpre hrest
      cases j with
      | null =>
        rw [show (prettyJson ind .null).data = 'n' :: 'u' :: 'l' :: 'l' :: [] from rfl]
        simp only [List.cons_append, List.nil_append]
        have hskip : skipWs (pre ++ 'n' :: 'u' :: 'l' :: 'l' :: rest)
            = 'n' :: 'u' :: 'l' :: 'l' :: rest := by
          rw [skipWs_append_ws _ _ hpre]
          exact skipWs_cons_not _ _ (by decide)
        rw [parseValue_step fuel _ _ _ hskip]
        rfl
      | bool b =>
        cases b with
        | false =>
          rw [show (prettyJson ind (.bool false)).data
            = 'f' :: 'a' :: 'l' :: 's' :: 'e' :: [] from rfl]
          simp only [List.cons_append, List.nil_append]
          have hskip : skipWs (pre ++ 'f' :: 'a' :: 'l' :: 's' :: 'e' :: rest)
              = 'f' :: 'a' :: 'l' :: 's' :: 'e' :: rest := by
            rw [skipWs_append_ws _ _ hpre]
            exact skipWs_cons_not _ _ (by decide)
          rw [parseValue_step fuel _ _ _ hskip]
          rfl
        | true =>
          rw [show (prettyJson ind (.bool true)).data = 't' :: 'r' :: 'u' :: 'e' :: [] from rfl]
          simp only [List.cons_append, List.nil_append]
          have hskip : skipWs (pre ++ 't' :: 'r' :: 'u' :: 'e' :: rest)
              = 't' :: 'r' :: 'u' :: 'e' :: rest := by
            rw [skipWs_append_ws _ _ hpre]
            exact skipWs_cons_not _ _ (by decide)
          rw [parseValue_step fuel _ _ _ hskip]
          rfl
      | num t =>
        have hnv : numValid t.data = true := hwf
        obtain ⟨c, r, hdt, hcase⟩ := numValid_head t.data hnv
        obtain ⟨hws, hn, ht', hf, hq, hlb, hlc, _, _, _, hnum⟩ := numHead_facts c hcase
        rw [show (prettyJson ind (.num t)).data = t.data from rfl, hdt]
        simp only [List.cons_append]
        have hskip : skipWs (pre ++ c :: (r ++ rest)) = c :: (r ++ rest) := by
          rw [skipWs_append_ws _ _ hpre]
          exact skipWs_cons_not _ _ hws
        rw [parseValue_step fuel _ _ _ hskip]
        rw [if_neg hn, if_neg ht', if_neg hf, if_neg hq, if_neg hlb, if_neg hlc, if_pos hnum]
        have htw := @takeWhile_append_all isNumChar t.data rest (numValid_all t.data hnv) hrest
        have hcr : c :: (r ++ rest) = t.data ++ rest := by
          rw [hdt]
          rfl
        rw [hcr, htw.1, htw.2, if_pos hnv]
      | str s =>
        rw [show (prettyJson ind (.str s)).data
          = '"' :: (escapeJsonString s.data ++ ['"']) from rfl]
        simp only [List.cons_append, List.append_assoc, List.nil_append]
        have hskip : skipWs (pre ++ '"' :: (escapeJsonString s.data ++ '"' :: rest))
            = '"' :: (escapeJsonString s.data ++ '"' :: rest) := by
          rw [skipWs_append_ws _ _ hpre]
          exact skipWs_cons_not _ _ (by decide)
        rw [parseValue_step fuel _ _ _ hskip]
        rw [if_neg (by decide), if_neg (by decide), if_neg (by decide), if_pos rfl]
        rw [parseStringBody_escape]
        rfl
      | arr xs =>
        cases xs with
        | nil =>
          rw [show (prettyJson ind (.arr [])).data = '[' :: ']' :: [] from rfl]
          simp only [List.cons_append, List.nil_append]
          have hskip : skipWs (pre ++ '[' :: ']' :: rest) = '[' :: ']' :: rest := by
            rw [skipWs_append_ws _ _ hpre]
            exact skipWs_cons_not _ _ (by decide)
          rw [parseValue_step fuel _ _ _ hskip]
          rw [if_neg (by decide), if_neg (by decide), if_neg (by decide), if_neg (by decide),
            if_pos rfl]
          rw [skipWs_cons_not _ _ (by decide)]
          rfl
        | cons x xs =>
          have hx := Bool.and_eq_true_iff.mp (show (wfJson x && wfJsonList xs) = true from hwf)
          have hfl' : needFuelElems (x :: xs) ≤ fuel := by
            have h1 : 1 + needFuelElems (x :: xs) ≤ fuel + 1 := hfl
            omega
          have hd : (prettyJson ind (.arr (x :: xs))).data
              = '[' :: '\n' :: ((prettyElems (ind ++ "  ") (x :: xs)).data
                ++ ('\n' :: (ind.data ++ [']']))) := by
            show ("[\n" ++ prettyElems (ind ++ "  ") (x :: xs) ++ "\n" ++ ind ++ "]").data = _
            simp only [String.data_append]
            simp only [List.append_assoc, List.cons_append, List.nil_append]
          rw [hd]
          simp only [List.cons_append, List.append_assoc, List.nil_append]
          have hind2 : ∀ c ∈ (ind ++ "  ").data, isJsonWs c = true := ws_ind_two ind hind
          have hskip : skipWs (pre ++ '[' :: '\n' :: ((prettyElems (ind ++ "  ") (x :: xs)).data
              ++ ('\n' :: (ind.data ++ (']' :: rest)))))
              = '[' :: '\n' :: ((prettyElems (ind ++ "  ") (x :: xs)).data
                ++ ('\n' :: (ind.data ++ (']' :: rest)))) := by
            rw [skipWs_append_ws _ _ hpre]
            exact skipWs_cons_not _ _ (by decide)
          rw [parseValue_step fuel _ _ _ hskip]
          rw [if_neg (by decide), if_neg (by decide), if_neg (by decide), if_neg (by decide),
            if_pos rfl]
          obtain ⟨S, hS⟩ := prettyElems_decomp (ind ++ "  ") x xs
          obtain ⟨c0, t0, hpx, hws0, hnb, _⟩ := prettyJson_head (ind ++ "  ") x hx.1
          have hguard : skipWs ('\n' :: ((prettyElems (ind ++ "  ") (x :: xs)).data
              ++ ('\n' :: (ind.data ++ (']' :: rest)))))
              = c0 :: (t0 ++ (S ++ ('\n' :: (ind.data ++ (']' :: rest))))) := by
            rw [skipWs_cons_ws _ _ (by decide), hS]
            simp only [List.append_assoc]
            rw [skipWs_append_ws _ _ hind2, hpx]
            simp only [List.cons_append]
            rw [skipWs_cons_not _ _ hws0]
          have hne2 : ¬((skipWs ('\n' :: ((prettyElems (ind ++ "  ") (x :: xs)).data
              ++ ('\n' :: (ind.data ++ (']' :: rest)))))).head? = some ']') := by
            rw [hguard]
            intro hcontra
            rw [List.head?_cons] at hcontra
            injection hcontra with hh
            exact hnb hh
          rw [if_neg hne2]
          have hE := ihE (x :: xs) (by simp) (show wfJsonList (x :: xs) = true from hwf) hfl'
            (ind ++ "  ") ['\n'] ('\n' :: ind.data) rest hind2 (by decide)
            (ws_cons '\n' ind.data (by decide) hind)
          simp only [List.cons_append, List.nil_append, List.append_assoc] at hE
          rw [hE]
          rfl
      | obj fs =>
        cases fs with
        | nil =>
          rw [show (prettyJson ind (.obj [])).data = '\x7b' :: '\x7d' :: [] from rfl]
          simp only [List.cons_append, List.nil_append]
          have hskip : skipWs (pre ++ '\x7b' :: '\x7d' :: rest) = '\x7b' :: '\x7d' :: rest := by
            rw [skipWs_append_ws _ _ hpre]
            exact skipWs_cons_not _ _ (by decide)
          rw [parseValue_step fuel _ _ _ hskip]
          rw [if_neg (by decide), if_neg (by decide), if_neg (by decide), if_neg (by decide),
            if_neg (by decide), if_pos rfl]
          rw [skipWs_cons_not _ _ (by decide)]
          rfl
        | cons f fs =>
          obtain ⟨k, v⟩ := f
          have hkv := Bool.and_eq_true_iff.mp (show (wfJson v && wfJsonFields fs) = true from hwf)
          have hfl' : needFuelMembers ((k, v) :: fs) ≤ fuel := by
            have h1 : 1 + needFuelMembers ((k, v) :: fs) ≤ fuel + 1 := hfl
            omega
          have hd : (prettyJson ind (.obj ((k, v) :: fs))).data
              = '\x7b' :: '\n' :: ((prettyMembers (ind ++ "  ") ((k, v) :: fs)).data
                ++ ('\n' :: (ind.data ++ ['\x7d']))) := by
            show ("\x7b\n" ++ prettyMembers (ind ++ "  ") ((k, v) :: fs) ++ "\n"
              ++ ind ++ "\x7d").data = _
            simp only [String.data_append]
            simp only [List.append_assoc, List.cons_append, List.nil_append]
          rw [hd]
          simp only [List.cons_append, List.append_assoc, List.nil_append]
          have hind2 : ∀ c ∈ (ind ++ "  ").data, isJsonWs c = true := ws_ind_two ind hind
          have hskip : skipWs (pre ++ '\x7b' :: '\n'
              :: ((prettyMembers (ind ++ "  ") ((k, v) :: fs)).data
                ++ ('\n' :: (ind.data ++ ('\x7d' :: rest)))))
              = '\x7b' :: '\n' :: ((prettyMembers (ind ++ "  ") ((k, v) :: fs)).data
                ++ ('\n' :: (ind.data ++ ('\x7d' :: rest)))) := by
            rw [skipWs_append_ws _ _ hpre]
            exact skipWs_cons_not _ _ (by decide)
          rw [parseValue_step fuel _ _ _ hskip]
          rw [if_neg (by decide), if_neg (by decide), if_neg (by decide), if_neg (by decide),
            if_neg (by decide), if_pos rfl]
          obtain ⟨S, hS⟩ := prettyMembers_decomp (ind ++ "  ") (k, v) fs
          have hguard : skipWs ('\n' :: ((prettyMembers (ind ++ "  ") ((k, v) :: fs)).data
              ++ ('\n' :: (ind.data ++ ('\x7d' :: rest)))))
              = '"' :: (S ++ ('\n' :: (ind.data ++ ('\x7d' :: rest)))) := by
            rw [skipWs_cons_ws _ _ (by decide), hS]
            simp only [List.append_assoc, List.cons_append]
            rw [skipWs_append_ws _ _ hind2]
            exact skipWs_cons_not _ _ (by decide)
          have hne2 : ¬((skipWs ('\n' :: ((prettyMembers (ind ++ "  ") ((k, v) :: fs)).data
              ++ ('\n' :: (ind.data ++ ('\x7d' :: rest)))))).head? = some '\x7d') := by
            rw [hguard]
            intro hcontra
            rw [List.head?_cons] at hcontra
            injection hcontra with hh
            exact absurd hh (by decide)
          rw [if_neg hne2]
          have hM := ihM ((k, v) :: fs) (by simp)
            (show wfJsonFields ((k, v) :: fs) = true from hwf) hfl'
            (ind ++ "  ") ['\n'] ('\n' :: ind.data) rest hind2 (by decide)
            (ws_cons '\n' ind.data (by decide) hind)
          simp only [List.cons_append, List.nil_append, List.append_assoc] at hM
          rw [hM]
          rfl
    · -- parseElems
      intro xs hne hwfl hfl ind pre w2 rest hind hpre hw2
      cases xs with
      | nil => exact absurd rfl hne
      | cons x xs' =>
        have hx := Bool.and_eq_true_iff.mp (show (wfJson x && wfJsonList xs') = true from hwfl)
        have hflx : 1 + needFuel x + needFuelElems xs' ≤ fuel + 1 := hfl
        cases xs' with
        | nil =>
          have hd : (prettyElems ind [x]).data = ind.data ++ (prettyJson ind x).data := by
            show (ind ++ prettyJson ind x).data = _
            rw [String.data_append]
          rw [hd]
          simp only [List.append_assoc]
          have hV := ihV x hx.1 (by omega) ind (pre ++ ind.data) (w2 ++ (']' :: rest)) hind
            (ws_append pre ind.data hpre hind)
            (head_not_num_append w2 ']' rest hw2 (by decide))
          simp only [List.append_assoc] at hV
          rw [parseElems_step fuel _ _ _ hV]
          rw [skipWs_append_ws _ _ hw2, skipWs_cons_not _ _ (by decide)]
          rfl
        | cons y ys =>
          have hd : (prettyElems ind (x :: y :: ys)).data
              = ind.data ++ ((prettyJson ind x).data
                ++ (',' :: '\n' :: (prettyElems ind (y :: ys)).data)) := by
            show (ind ++ prettyJson ind x ++ ",\n" ++ prettyElems ind (y :: ys)).data = _
            simp only [String.data_append]
            simp only [List.append_assoc, List.cons_append, List.nil_append]
          rw [hd]
          simp only [List.append_assoc, List.cons_append]
          have hV := ihV x hx.1 (by omega) ind (pre ++ ind.data)
            (',' :: '\n' :: ((prettyElems ind (y :: ys)).data ++ (w2 ++ (']' :: rest)))) hind
            (ws_append pre ind.data hpre hind) (head_not_num_cons ',' _ (by decide))
          simp only [List.append_assoc] at hV
          rw [parseElems_step fuel _ _ _ hV]
          rw [skipWs_cons_not _ _ (by decide)]
          show (parseElems fuel ('\n' :: ((prettyElems ind (y :: ys)).data
            ++ (w2 ++ (']' :: rest))))).map (fun p => (x :: p.1, p.2))
            = some (x :: y :: ys, rest)
          have hE' := ihE (y :: ys) (by simp) hx.2 (by omega) ind ['\n'] w2 rest hind
            (by decide) hw2
          simp only [List.cons_append, List.nil_append] at hE'
          rw [hE']
          rfl
    · -- parseMembers
      intro fs hne hwff hfl ind pre w2 rest hind hpre hw2
      cases fs with
      | nil => exact absurd rfl hne
      | cons f fs' =>
        obtain ⟨k, v⟩ := f
        have hkv := Bool.and_eq_true_iff.mp (show (wfJson v && wfJsonFields fs') = true from hwff)
        have hflv : 1 + needFuel v + needFuelMembers fs' ≤ fuel + 1 := hfl
        cases fs' with
        | nil =>
          have hd : (prettyMembers ind [(k, v)]).data
              = ind.data ++ ('"' :: (escapeJsonString k.data
                ++ ('"' :: (':' :: ' ' :: (prettyJson ind v).data)))) := by
            show (ind ++ quoteJsonString k ++ ": " ++ prettyJson ind v).data = _
            simp only [String.data_append]
            rw [show (quoteJsonString k).data
              = '"' :: (escapeJsonString k.data ++ ['"']) from rfl]
            simp only [List.append_assoc, List.cons_append, List.nil_append]
          rw [hd]
          simp only [List.append_assoc, List.cons_append, List.nil_append]
          have hskip : skipWs (pre ++ (ind.data ++ ('"' :: (escapeJsonString k.data
              ++ ('"' :: (':' :: ' ' :: ((prettyJson ind v).data
                ++ (w2 ++ ('\x7d' :: rest)))))))))
              = '"' :: (escapeJsonString k.data ++ ('"' :: (':' :: ' '
                :: ((prettyJson ind v).data ++ (w2 ++ ('\x7d' :: rest)))))) := by
            rw [skipWs_append_ws _ _ hpre, skipWs_append_ws _ _ hind]
            exact skipWs_cons_not _ _ (by decide)
          have hV := ihV v hkv.1 (by omega) ind [' '] (w2 ++ ('\x7d' :: rest)) hind
            (by decide) (head_not_num_append w2 '\x7d' rest hw2 (by decide))
          simp only [List.cons_append, List.nil_append] at hV
          rw [parseMembers_chain fuel _ k _ _ v hskip hV]
          rw [skipWs_append_ws _ _ hw2, skipWs_cons_not _ _ (by decide)]
          rfl
        | cons g gs =>
          have hd : (prettyMembers ind ((k, v) :: g :: gs)).data
              = ind.data ++ ('"' :: (escapeJsonString k.data
                ++ ('"' :: (':' :: ' ' :: ((prettyJson ind v).data
                  ++ (',' :: '\n' :: (prettyMembers ind (g :: gs)).data)))))) := by
            show (ind ++ quoteJsonString k ++ ": " ++ prettyJson ind v ++ ",\n"
              ++ prettyMembers ind (g :: gs)).data = _
            simp only [String.data_append]
            rw [show (quoteJsonString k).data
              = '"' :: (escapeJsonString k.data ++ ['"']) from rfl]
            simp only [List.append_assoc, List.cons_append, List.nil_append]
          rw [hd]
          simp only [List.append_assoc, List.cons_append, List.nil_append]
          have hskip : skipWs (pre ++ (ind.data ++ ('"' :: (escapeJsonString k.data
              ++ ('"' :: (':' :: ' ' :: ((prettyJson ind v).data
                ++ (',' :: '\n' :: ((prettyMembers ind (g :: gs)).data
                  ++ (w2 ++ ('\x7d' :: rest)))))))))))
              = '"' :: (escapeJsonString k.data ++ ('"' :: (':' :: ' '
                :: ((prettyJson ind v).data ++ (',' :: '\n'
                  :: ((prettyMembers ind (g :: gs)).data
                    ++ (w2 ++ ('\x7d' :: rest)))))))) := by
            rw [skipWs_append_ws _ _ hpre, skipWs_append_ws _ _ hind]
            exact skipWs_cons_not _ _ (by decide)
          have hV := ihV v hkv.1 (by omega) ind [' ']
            (',' :: '\n' :: ((prettyMembers ind (g :: gs)).data
              ++ (w2 ++ ('\x7d' :: rest)))) hind
            (by decide) (head_not_num_cons ',' _ (by decide))
          simp only [List.cons_append, List.nil_append] at hV
          rw [parseMembers_chain fuel _ k _ _ v hskip hV]
          rw [skipWs_cons_not _ _ (by decide)]
          show (parseMembers fuel ('\n' :: ((prettyMembers ind (g :: gs)).data
            ++ (w2 ++ ('\x7d' :: rest))))).map (fun p => ((k, v) :: p.1, p.2))
            = some ((k, v) :: g :: gs, rest)
          have hM' := ihM (g :: gs) (by simp) hkv.2 (by omega) ind ['\n'] w2 rest hind
            (by decide) hw2
          simp only [List.cons_append, List.nil_append] at hM'
          rw [hM']
          rfl

theorem parseJson_pretty (j : Json) (h : wfJson j = true) :
    parseJson (prettyJson "" j) = some j := by
  have hV := (parse_pretty_all ((prettyJson "" j).data.length + 1)).1 j h
    (needFuel_le_len j "") "" [] []
    (by intro c hc; cases hc) (by intro c hc; cases hc) (by intro c hc; simp at hc)
  simp only [List.nil_append, List.append_nil] at hV
  simp only [parseJson]
  rw [hV]
  rfl

/-- C8: for every JsonState value s (in the image of JSON.parse, i.e. with
grammatically valid numeral tokens), writeState(s) followed by readLastState()
yields a value structurally equal to s: the pretty-printed serialization
written to the state file parses back to exactly the written value. -/
theorem c8_write_read_roundtrip (s : Json) (fs : StateFile) (h : wfJson s = true) :
    readLastState (writeState s fs) = .ok (some s) := by
  simp only [readLastState, writeState]
  rw [parseJson_pretty s h]

theorem c8_write_read_roundtrip_witness :
    wfJson (.obj [("a", .num "1")]) = true ∧
      readLastState (writeState (.obj [("a", .num "1")]) (StateFile.mk none)) =
        Except.ok (some (.obj [("a", .num "1")])) :=
  ⟨by decide, c8_write_read_roundtrip (.obj [("a", .num "1")]) (StateFile.mk none) (by decide)⟩

end JsonNotify
